import Mathlib

/-!
# Elden tree event engine: a shallow embedding of `EldenTreeEventHandler.h`

The header defines two class templates, `EventMessenger<EventType>` (the handler
registry and `dispatch`) and `EldenTreeEventHandler<EventType>` (the per-god queues,
`pushEvent`, `processEvents`, the `worker` loop and the destructor).

Modelling decisions, each forced by the source:

* `EventType` is the template parameter: every definition is generic in `ε`.
* `std::unordered_map<GodId, ...>` is an association list with unique keys.  The
  list order is the iteration order of the map.  `operator[]` on an absent key
  appends the new entry at the end (first-seen order).  The C++ standard leaves the
  position of a new key unspecified: the theorems on one pass, one drain and the
  destructor are stated for an arbitrary store, whatever its order, and the theorems
  over schedules state nothing about the order of the gods; only closed examples that
  push to several gods show one of the possible orders.
* `std::queue<EventType>` is a list, front first; `push` appends at the back.
* `EventHandler<EventType>` is `std::function<void(const EventType&)>`, an opaque
  callable.  A callable is represented by an identity (`EventHandler := Nat`) and
  its run is described by a `Behaviour`: the engine calls it makes
  (`pushEvent`, `registerHandler`), when it completes relative to the 100 ms wait of
  `dispatch`, and whether it ends by raising.  The behaviour may depend on the event
  and on the whole engine state, so stateful callables are covered.
* `dispatch` launches each handler with `std::async(std::launch::async, ...)`.  The
  future returned by `std::async` blocks in its destructor until the task has
  finished, and `fut` is destroyed at the end of every loop iteration.  Hence a
  handler that finishes late delays the loop until it has finished, and a handler
  that never finishes blocks `dispatch` for ever.  `fut.get()` rethrows the error of a
  handler that raised before the deadline; there is no `try` in the header.
* The constructor starts the worker thread, which runs concurrently with the callers,
  and both the worker and `processEvents()` release `queue_mutex_` between `q.pop()`
  and `dispatch`.  `Threads`, `move` and `exec` follow the worker and one caller of
  `processEvents()` move by move (a locked scan ending in a pop, the copy of the
  handler list, the launch of one handler), together with `pushEvent` and
  `registerHandler` calls made by any thread at any moment; the statements about the
  order of delivery, about registration and about what a drain leaves behind are
  proved over every such schedule.  `run` follows the schedules in which each call and
  each pass of the worker runs as a whole, no other thread moving meanwhile; it shows
  what one call or one pass does by itself.  `Machine` follows the worker against the
  destructor.
* Observations (events pushed, events handed to `dispatch`, handler invocations,
  timeout lines written to `std::cerr`) are kept in log fields of the state.
-/

namespace elden_tree_ns

/-- The key type, `using GodId = std::string;`. -/
abbrev GodId := String

/-- Identity of a registered callable (`EventHandler<EventType>`). -/
abbrev EventHandler := Nat

/-- The calls a running handler can make on the engine. -/
inductive Action (ε : Type) where
  | pushEvent (god : GodId) (event : ε)
  | registerHandler (god : GodId) (handler : EventHandler)
deriving DecidableEq, Repr

/-- Is the action a `pushEvent` call. -/
def Action.isPush {ε : Type} : Action ε → Bool
  | .pushEvent _ _ => true
  | .registerHandler _ _ => false

/-- When a handler run finishes, relative to `fut.wait_for(100ms)`. -/
inductive Completion where
  | inTime
  | late
  | never
deriving DecidableEq, Repr

/-- One run of a handler: the engine calls it makes, when it completes, and whether it
ends by raising. -/
structure Behaviour (ε : Type) where
  actions : List (Action ε)
  completion : Completion
  raises : Bool
deriving DecidableEq, Repr

/-- The dispatch loop goes on to the next handler after this run: the run finished in
time without raising, or it finished late (its error, if any, is never fetched). -/
def Behaviour.proceeds {ε : Type} (b : Behaviour ε) : Bool :=
  match b.completion, b.raises with
  | .inTime, false => true
  | .late, _ => true
  | _, _ => false

/-- State of an `EldenTreeEventHandler` together with its `messenger_`, and the logs of
what has been observed so far. -/
structure Engine (ε : Type) where
  /-- The registry `EventMessenger::handlers_`. -/
  handlers_ : List (GodId × List EventHandler)
  /-- The queue store `EldenTreeEventHandler::god_event_queues_`, in iteration order. -/
  god_event_queues_ : List (GodId × List ε)
  /-- The flag `EldenTreeEventHandler::stop_flag_`. -/
  stop_flag_ : Bool
  /-- Log: every `pushEvent(god, event)` call, in call order. -/
  pushed : List (GodId × ε)
  /-- Log: every `messenger_.dispatch(god, event)` call, in call order. -/
  dispatched : List (GodId × ε)
  /-- Log: every handler launch `std::async(..., handler, event)`, in launch order. -/
  invoked : List (EventHandler × ε)
  /-- Log: the god named by every "timed out" line written to `std::cerr`. -/
  diagnostics : List GodId
deriving DecidableEq, Repr

/-- How a call ends: it returns, it leaves by an exception, it blocks for ever, or the
evaluation budget of the model was used up before the call ended. -/
inductive Result (ε : Type) where
  | returned (s : Engine ε)
  | threw (s : Engine ε)
  | hung (s : Engine ε)
  | outOfFuel
deriving DecidableEq, Repr

/-- The engine state a call ended in, if it ended within the budget. -/
def Result.state {ε : Type} : Result ε → Option (Engine ε)
  | .returned s => some s
  | .threw s => some s
  | .hung s => some s
  | .outOfFuel => none

/-- A handler's behaviour as a function of its identity, the event and the engine state
it is launched in. -/
abbrev Behaviours (ε : Type) := EventHandler → ε → Engine ε → Behaviour ε

variable {ε : Type}

/-- The update `m[god].push_back(x)` / `m[god].push(x)` of an unordered map: append to the
entry of `god`, creating the entry when it is absent.  The new entry is put at the end of
the iteration order; the map itself may put it anywhere. -/
def appendAt {α : Type} (god : GodId) (x : α) : List (GodId × List α) → List (GodId × List α)
  | [] => [(god, [x])]
  | (g, xs) :: rest =>
      if g = god then (g, xs ++ [x]) :: rest else (g, xs) :: appendAt god x rest

/-- The read `m.count(god) ? m[god] : {}`: the entry of `god`, empty when absent. -/
def lookup {α : Type} (god : GodId) : List (GodId × List α) → List α
  | [] => []
  | (g, xs) :: rest => if g = god then xs else lookup god rest

/-- State after construction: no handler, no queue, `stop_flag_(false)`. -/
def Engine.init : Engine ε :=
  { handlers_ := [], god_event_queues_ := [], stop_flag_ := false,
    pushed := [], dispatched := [], invoked := [], diagnostics := [] }

/-- Method `registerHandler(god, handler)`: `handlers_[god].push_back(handler)`. -/
def registerHandler (god : GodId) (handler : EventHandler) (s : Engine ε) : Engine ε :=
  { s with handlers_ := appendAt god handler s.handlers_ }

/-- Method `pushEvent(god, event)`: `god_event_queues_[god].push(event)`; the call is also
logged. -/
def pushEvent (god : GodId) (event : ε) (s : Engine ε) : Engine ε :=
  { s with god_event_queues_ := appendAt god event s.god_event_queues_,
           pushed := s.pushed ++ [(god, event)] }

/-- One engine call made by a running handler. -/
def applyAction (s : Engine ε) : Action ε → Engine ε
  | .pushEvent god event => pushEvent god event s
  | .registerHandler god handler => registerHandler god handler s

/-- The engine calls of one handler run, in order. -/
def applyActions (s : Engine ε) (as : List (Action ε)) : Engine ε :=
  as.foldl applyAction s

/-- The loop `for (auto& handler : localHandlers)` of `dispatch` over the copied
handler list.  Each handler is launched, then
* timeout and the run never finishes: the line is logged and `~future` blocks;
* timeout and the run finishes late: the line is logged, `~future` waits, next handler;
* finished in time: `fut.get()` rethrows if the run raised, else next handler. -/
def runHandlers (beh : Behaviours ε) (god : GodId) (event : ε) :
    List EventHandler → Engine ε → Result ε
  | [], s => .returned s
  | h :: hs, s =>
      let b := beh h event s
      let s1 := applyActions { s with invoked := s.invoked ++ [(h, event)] } b.actions
      match b.completion with
      | .never => .hung { s1 with diagnostics := s1.diagnostics ++ [god] }
      | .late => runHandlers beh god event hs { s1 with diagnostics := s1.diagnostics ++ [god] }
      | .inTime => if b.raises then .threw s1 else runHandlers beh god event hs s1

/-- Method `EventMessenger::dispatch(god, event)`: copy `handlers_[god]` (empty when the god has
no entry), then run the copy. -/
def dispatch (beh : Behaviours ε) (god : GodId) (event : ε) (s : Engine ε) : Result ε :=
  runHandlers beh god event (lookup god s.handlers_)
    { s with dispatched := s.dispatched ++ [(god, event)] }

/-- Method `processEvents()` from the map position `i`: the `for` over `god_event_queues_` with
the inner `while (!q.empty())`.  An exception or a block in `dispatch` ends the call. -/
def drainFrom (beh : Behaviours ε) : Nat → Nat → Engine ε → Result ε
  | 0, _, _ => .outOfFuel
  | fuel + 1, i, s =>
      match s.god_event_queues_.get? i with
      | none => .returned s
      | some (_, []) => drainFrom beh fuel (i + 1) s
      | some (god, event :: q) =>
          match dispatch beh god event
              { s with god_event_queues_ := s.god_event_queues_.set i (god, q) } with
          | .returned s1 => drainFrom beh fuel i s1
          | r => r

/-- Method `processEvents()`: the drain from the first map position. -/
def processEvents (beh : Behaviours ε) (fuel : Nat) (s : Engine ε) : Result ε :=
  drainFrom beh fuel 0 s

/-- The `for` loop of one `worker` iteration from the map position `i`: for each god
whose queue is not empty, pop the front event and dispatch it.  (`processed` only
selects whether the thread yields afterwards and is not part of the state.) -/
def passFrom (beh : Behaviours ε) : Nat → Nat → Engine ε → Result ε
  | 0, _, _ => .outOfFuel
  | fuel + 1, i, s =>
      match s.god_event_queues_.get? i with
      | none => .returned s
      | some (_, []) => passFrom beh fuel (i + 1) s
      | some (god, event :: q) =>
          match dispatch beh god event
              { s with god_event_queues_ := s.god_event_queues_.set i (god, q) } with
          | .returned s1 => passFrom beh fuel (i + 1) s1
          | r => r

/-- One pass of the worker loop body over the whole map. -/
def workerPass (beh : Behaviours ε) (fuel : Nat) (s : Engine ε) : Result ε :=
  passFrom beh fuel 0 s

/-- The loop of `allQueuesEmpty()` over the map. -/
def allQueuesEmptyFrom : List (GodId × List ε) → Bool
  | [] => true
  | (_, q) :: rest => if !q.isEmpty then false else allQueuesEmptyFrom rest

/-- Method `allQueuesEmpty()`. -/
def allQueuesEmpty (s : Engine ε) : Bool :=
  allQueuesEmptyFrom s.god_event_queues_

/-- Where the worker thread stands in `worker()`. -/
inductive WorkerPc where
  /-- About to evaluate `while (!stop_flag_.load())`. -/
  | loopHead
  /-- Past the loop test, in `cv_.wait_for(...)` or about to enter it. -/
  | waiting
  /-- The loop test failed and `worker()` returned. -/
  | exited
  /-- An exception left `worker()`: `std::terminate`. -/
  | terminated
  /-- Blocked for ever inside `dispatch`. -/
  | blocked
deriving DecidableEq, Repr

/-- The engine and its worker thread. -/
structure Machine (ε : Type) where
  engine : Engine ε
  pc : WorkerPc
deriving DecidableEq, Repr

/-- The constructor: `stop_flag_(false)` and the worker thread started. -/
def Machine.init : Machine ε :=
  { engine := Engine.init, pc := .loopHead }

/-- One move of the worker thread.  At the loop head it tests `stop_flag_`.  After the
test, `cv_.wait_for` returns (its predicate holds, or the 1 ms bound elapsed) and the
`for` loop runs; the flag is not read again before the next loop head. -/
def workerStep (beh : Behaviours ε) (fuel : Nat) (w : Machine ε) : Option (Machine ε) :=
  match w.pc with
  | .loopHead => some { w with pc := if w.engine.stop_flag_ then .exited else .waiting }
  | .waiting =>
      match workerPass beh fuel w.engine with
      | .returned s => some { engine := s, pc := .loopHead }
      | .threw s => some { engine := s, pc := .terminated }
      | .hung s => some { engine := s, pc := .blocked }
      | .outOfFuel => none
  | _ => some w

/-- The first statement of the destructor: `stop_flag_.store(true)`. -/
def setStop (w : Machine ε) : Machine ε :=
  { w with engine := { w.engine with stop_flag_ := true } }

/-- The thread function `worker()`, followed from where the thread stands until it has
returned; `n` bounds the number of moves followed.  This is what `worker_thread_.join()`
waits for. -/
def worker (beh : Behaviours ε) (fuel : Nat) : Nat → Machine ε → Option (Machine ε)
  | 0, w => if w.pc = .exited then some w else none
  | n + 1, w =>
      if w.pc = .exited then some w
      else match workerStep beh fuel w with
        | some w1 => worker beh fuel n w1
        | none => none

/-- The destructor `~EldenTreeEventHandler()`: set the flag, wake the worker, join. -/
def shutdown (beh : Behaviours ε) (fuel : Nat) (w : Machine ε) : Option (Machine ε) :=
  worker beh fuel 2 (setStop w)

/-- A call on the engine from outside, or one pass of the worker, run as a whole. -/
inductive Step (ε : Type) where
  | pushEvent (god : GodId) (event : ε)
  | registerHandler (god : GodId) (handler : EventHandler)
  | workerPass
  | processEvents
deriving DecidableEq, Repr

/-- Effect of one step. -/
def step (beh : Behaviours ε) (fuel : Nat) (s : Engine ε) : Step ε → Result ε
  | .pushEvent god event => .returned (pushEvent god event s)
  | .registerHandler god handler => .returned (registerHandler god handler s)
  | .workerPass => workerPass beh fuel s
  | .processEvents => processEvents beh fuel s

/-- A schedule in which every step runs as a whole: no other thread moves while a
`processEvents()` call or a pass of the worker is under way, and the worker moves only
where a pass is listed.  The sequence ends at the first step that does not return.
(Schedules in which the threads interleave inside a call are followed by `exec`.) -/
def run (beh : Behaviours ε) (fuel : Nat) : List (Step ε) → Engine ε → Result ε
  | [], s => .returned s
  | st :: rest, s =>
      match step beh fuel s st with
      | .returned s1 => run beh fuel rest s1
      | r => r

/-- No handler run calls `pushEvent`. -/
def NoPush (beh : Behaviours ε) : Prop :=
  ∀ h e s, ∀ a ∈ (beh h e s).actions, a.isPush = false

/-- Every handler run lets the dispatch loop go on: it neither raises before the
deadline nor runs for ever. -/
def Completes (beh : Behaviours ε) : Prop :=
  ∀ h e s, (beh h e s).proceeds = true

/-- The events of `god` in a log of `(god, event)` pairs, in log order. -/
def eventsFor (god : GodId) (log : List (GodId × ε)) : List ε :=
  (log.filter (fun p => decide (p.1 = god))).map Prod.snd

/-- A handler that only records: no engine call, finishes in time, does not raise. -/
def recording : Behaviours ε :=
  fun _ _ _ => { actions := [], completion := .inTime, raises := false }

/-! ## Quantities and predicates used in the statements -/

/-- Loop iterations that a queue store can still cause: one per queued event and one
per god. -/
def work (l : List (GodId × List ε)) : Nat :=
  (l.map (fun p => p.2.length + 1)).sum

/-- The events of a queue store as `(god, event)` pairs: god by god in iteration order,
each queue front first. -/
def queuedEvents (l : List (GodId × List ε)) : List (GodId × ε) :=
  l.flatMap (fun p => p.2.map (fun e => (p.1, e)))

/-- Every queue of the store emptied, the gods kept. -/
def emptied (l : List (GodId × List ε)) : List (GodId × List ε) :=
  l.map (fun p => (p.1, []))

/-- The front event of every god whose queue is not empty, in iteration order. -/
def fronts (l : List (GodId × List ε)) : List (GodId × ε) :=
  l.filterMap (fun p => p.2.head?.map (fun e => (p.1, e)))

/-- Every queue of the store without its front event (an empty queue stays empty). -/
def serviced (l : List (GodId × List ε)) : List (GodId × List ε) :=
  l.map (fun p => (p.1, p.2.tail))

/-- Handler `1` raises before the deadline; every other handler only records. -/
def raisingFirst : Behaviours Nat :=
  fun h _ _ => { actions := [], completion := .inTime, raises := (h == 1) }

/-- Handler `1` never returns; every other handler only records. -/
def stuckFirst : Behaviours Nat :=
  fun h _ _ => { actions := [], completion := if h = 1 then .never else .inTime,
                 raises := false }

/-- Handler `1` returns after the deadline; every other handler only records. -/
def slowFirst : Behaviours Nat :=
  fun h _ _ => { actions := [], completion := if h = 1 then .late else .inTime,
                 raises := false }

/-- Handler `1` registers handler `2` for god `"A"` while it runs. -/
def registeringFirst : Behaviours Nat :=
  fun h _ _ => { actions := if h = 1 then [.registerHandler "A" 2] else [],
                 completion := .inTime, raises := false }

/-- Handler `1` pushes event `0` to god `"A"` every time it runs. -/
def alwaysPushing : Behaviours Nat :=
  fun h _ _ => { actions := if h = 1 then [.pushEvent "A" 0] else [],
                 completion := .inTime, raises := false }

/-- How a call ended, without the state. -/
inductive Ending where
  | returned
  | threw
  | hung
  | outOfFuel
deriving DecidableEq, Repr

/-- The way a result ended. -/
def Result.ending {ε : Type} : Result ε → Ending
  | .returned _ => .returned
  | .threw _ => .threw
  | .hung _ => .hung
  | .outOfFuel => .outOfFuel

/-- A call made on the engine by another thread while the worker stands where it is. -/
def onEngine (f : Engine ε → Engine ε) (w : Machine ε) : Machine ε :=
  { w with engine := f w.engine }

/-! ## Interleaved threads -/

/-- Where a thread that takes events from the store stands: the worker in `worker()`,
or a caller in `processEvents()`. -/
inductive Consumer (ε : Type) where
  /-- Not in the loop over the map: the worker at the loop head or in the wait, the
  caller outside `processEvents()`. -/
  | outside
  /-- After `q.pop()` and `lock.unlock()` at map position `i`, before `dispatch` has
  copied the handler list. -/
  | holding (i : Nat) (god : GodId) (event : ε)
  /-- Inside `dispatch(god, event)` after the copy, the handlers `rest` of the copy
  still to be launched; with `rest` empty, `dispatch` has returned and the thread is
  about to take `lock.lock()`. -/
  | launching (i : Nat) (god : GodId) (event : ε) (rest : List EventHandler)
  /-- Left by an exception of a handler. -/
  | failed
  /-- Blocked for ever in the destructor of a future. -/
  | blocked
deriving DecidableEq, Repr

/-- The event a thread has popped and not yet handed to `dispatch`. -/
def Consumer.held : Consumer ε → List (GodId × ε)
  | .holding _ god event => [(god, event)]
  | _ => []

/-- Does the next move of a caller start a `processEvents()` call: the caller is outside
a call, or it has left its last call by an exception (which it may have caught). -/
def Consumer.startsCall : Consumer ε → Bool
  | .outside => true
  | .failed => true
  | _ => false

/-- The engine shared by the worker thread and a thread that calls `processEvents()`,
with where each of the two stands. -/
structure Threads (ε : Type) where
  engine : Engine ε
  /-- Log: every `q.pop()`, by either thread, in pop order. -/
  popped : List (GodId × ε)
  worker : Consumer ε
  caller : Consumer ε
  /-- Log: the number of `pushEvent` calls made before the caller's current (or last)
  `processEvents()` call started. -/
  callMark : Nat
deriving DecidableEq, Repr

/-- After construction: the initial engine, the worker started, no call made. -/
def Threads.init : Threads ε :=
  { engine := Engine.init, popped := [], worker := .outside, caller := .outside, callMark := 0 }

/-- The first queue of a list that is not empty: how many empty queues come before it,
its god, its front event and the rest of the queue. -/
def firstNonEmpty : List (GodId × List ε) → Option (Nat × GodId × ε × List ε)
  | [] => none
  | (_, []) :: rest => (firstNonEmpty rest).map (fun r => (r.1 + 1, r.2))
  | (god, event :: q) :: _ => some (0, god, event, q)

/-- What a thread does while it holds `queue_mutex_` in the loop over the map, from map
position `p`: it passes the gods whose queue is empty; at the first queue that is not
empty it pops the front event and releases the mutex; at the end of the map it leaves
the loop. -/
def lockedScan (p : Nat) (s : Engine ε) (popped : List (GodId × ε)) :
    Engine ε × List (GodId × ε) × Consumer ε :=
  match firstNonEmpty (s.god_event_queues_.drop p) with
  | none => (s, popped, .outside)
  | some (d, god, event, q) =>
      ({ s with god_event_queues_ := s.god_event_queues_.set (p + d) (god, q) },
        popped ++ [(god, event)], .holding (p + d) god event)

/-- The next move of a thread that takes events from the store.  `drain` tells the
inner `while` of `processEvents()` (back to the same god after a dispatch) from the `if`
of the worker (on to the next god).
* outside: take the mutex and scan from the first god;
* holding: `dispatch` copies the handler list of the god (the call is logged);
* launching, handlers left: launch the next handler of the copy and wait for it, as in
  `runHandlers`;
* launching, no handler left: take the mutex again and scan on;
* failed: an exception has left the loop; a caller may call `processEvents()` again, the
  worker thread is gone;
* blocked: no further move. -/
def advance (beh : Behaviours ε) (drain : Bool) (s : Engine ε) (popped : List (GodId × ε)) :
    Consumer ε → Engine ε × List (GodId × ε) × Consumer ε
  | .outside => lockedScan 0 s popped
  | .holding i god event =>
      ({ s with dispatched := s.dispatched ++ [(god, event)] }, popped,
        .launching i god event (lookup god s.handlers_))
  | .launching i _ _ [] => lockedScan (if drain then i else i + 1) s popped
  | .launching i god event (h :: hs) =>
      match runHandlers beh god event [h] s with
      | .returned s1 => (s1, popped, .launching i god event hs)
      | .threw s1 => (s1, popped, .failed)
      | .hung s1 => (s1, popped, .blocked)
      | .outOfFuel => (s, popped, .failed)
  | .failed => if drain then lockedScan 0 s popped else (s, popped, .failed)
  | .blocked => (s, popped, .blocked)

/-- A move of one thread: a `pushEvent` or `registerHandler` call by any thread, the next
move of the worker, or the next move of the caller of `processEvents()` (which starts a
call when the caller is outside one).  The destructor is not among the moves. -/
inductive Move (ε : Type) where
  | pushEvent (god : GodId) (event : ε)
  | registerHandler (god : GodId) (handler : EventHandler)
  | workerGo
  | callerGo
deriving DecidableEq, Repr

/-- Effect of one move. -/
def move (beh : Behaviours ε) (c : Threads ε) : Move ε → Threads ε
  | .pushEvent god event => { c with engine := pushEvent god event c.engine }
  | .registerHandler god handler => { c with engine := registerHandler god handler c.engine }
  | .workerGo =>
      let r := advance beh false c.engine c.popped c.worker
      { c with engine := r.1, popped := r.2.1, worker := r.2.2 }
  | .callerGo =>
      let r := advance beh true c.engine c.popped c.caller
      { c with engine := r.1, popped := r.2.1, caller := r.2.2,
               callMark := if c.caller.startsCall then c.engine.pushed.length else c.callMark }

/-- A schedule: the moves of the threads in the order in which they happen. -/
def exec (beh : Behaviours ε) (ms : List (Move ε)) (c : Threads ε) : Threads ε :=
  ms.foldl (move beh) c

/-- The gods of the queue store, in iteration order. -/
def keysOf (s : Engine ε) : List GodId :=
  s.god_event_queues_.map Prod.fst

/-- The store has one entry per god, and for every god the events popped so far, in pop
order, followed by the events still queued are the events pushed so far, in push
order. -/
def Ledger (popped : List (GodId × ε)) (s : Engine ε) : Prop :=
  (keysOf s).Nodup ∧
  ∀ k, eventsFor k popped ++ lookup k s.god_event_queues_ = eventsFor k s.pushed

/-- The engine `t` comes after `s`: pushes, gods and registrations have only been added. -/
def Extends (s t : Engine ε) : Prop :=
  s.pushed <+: t.pushed ∧ keysOf s <+: keysOf t ∧
  ∀ g, lookup g s.handlers_ <+: lookup g t.handlers_

/-- There was a moment, not before `mark` pushes had been made, at which every event
pushed to `k` until then had been popped. -/
def Drained (mark : Nat) (pushed popped : List (GodId × ε)) (k : GodId) : Prop :=
  ∃ m, mark ≤ m ∧ m ≤ pushed.length ∧ eventsFor k (pushed.take m) <+: eventsFor k popped

/-- How far the caller's `processEvents()` call has come: the gods before its map
position have each been found with an empty queue since the call started; outside a
call, this holds of every god for the last call. -/
def CallProgress (c : Threads ε) : Prop :=
  match c.caller with
  | .outside => ∀ k, Drained c.callMark c.engine.pushed c.popped k
  | .holding i _ _ =>
      i < c.engine.god_event_queues_.length ∧
      ∀ k ∈ (keysOf c.engine).take i, Drained c.callMark c.engine.pushed c.popped k
  | .launching i _ _ _ =>
      i < c.engine.god_event_queues_.length ∧
      ∀ k ∈ (keysOf c.engine).take i, Drained c.callMark c.engine.pushed c.popped k
  | _ => True

/-- The handlers a dispatch in progress has still to launch were registered for its god
when it took its copy, so they are registered now. -/
def Consumer.FromCopy (s : Engine ε) : Consumer ε → Prop
  | .launching _ god _ rest => ∀ h ∈ rest, h ∈ lookup god s.handlers_
  | _ => True

/-- What every schedule keeps. -/
structure Inv (c : Threads ε) : Prop where
  ledger : Ledger c.popped c.engine
  once : (c.engine.dispatched ++ (c.worker.held ++ c.caller.held)).Perm c.popped
  mark : c.callMark ≤ c.engine.pushed.length
  progress : CallProgress c
  copyW : c.worker.FromCopy c.engine
  copyC : c.caller.FromCopy c.engine

/-- Relative to the logs `inv0` and `disp0` of an earlier moment: every launch of `H`
made since then is with an event that was handed to `dispatch` since then, and so will
be every launch of `H` by a dispatch now in progress. -/
def LaunchedSince (H : EventHandler) (inv0 : List (EventHandler × ε))
    (disp0 : List (GodId × ε)) (c : Threads ε) : Prop :=
  ∃ ni nd, c.engine.invoked = inv0 ++ ni ∧ c.engine.dispatched = disp0 ++ nd ∧
    (∀ e, (H, e) ∈ ni → ∃ g, (g, e) ∈ nd) ∧
    (∀ i g e rest, c.worker = .launching i g e rest → H ∈ rest → (g, e) ∈ nd) ∧
    (∀ i g e rest, c.caller = .launching i g e rest → H ∈ rest → (g, e) ∈ nd)

/-! ## Engine calls made by handlers -/

theorem applyActions_cons (s : Engine ε) (a : Action ε) (as : List (Action ε)) :
    applyActions s (a :: as) = applyActions (applyAction s a) as := rfl

theorem applyAction_frame (s : Engine ε) (a : Action ε) :
    (applyAction s a).dispatched = s.dispatched ∧ (applyAction s a).invoked = s.invoked ∧
    (applyAction s a).diagnostics = s.diagnostics ∧ (applyAction s a).stop_flag_ = s.stop_flag_ := by
  cases a <;> simp [applyAction, pushEvent, registerHandler]

theorem applyActions_frame (as : List (Action ε)) (s : Engine ε) :
    (applyActions s as).dispatched = s.dispatched ∧ (applyActions s as).invoked = s.invoked ∧
    (applyActions s as).diagnostics = s.diagnostics ∧
    (applyActions s as).stop_flag_ = s.stop_flag_ := by
  induction as generalizing s with
  | nil => simp [applyActions]
  | cons a as ih =>
      rw [applyActions_cons]
      obtain ⟨h1, h2, h3, h4⟩ := ih (applyAction s a)
      obtain ⟨g1, g2, g3, g4⟩ := applyAction_frame s a
      exact ⟨h1.trans g1, h2.trans g2, h3.trans g3, h4.trans g4⟩

theorem applyActions_noPush (as : List (Action ε)) (s : Engine ε)
    (h : ∀ a ∈ as, a.isPush = false) :
    (applyActions s as).god_event_queues_ = s.god_event_queues_ ∧
    (applyActions s as).pushed = s.pushed := by
  induction as generalizing s with
  | nil => simp [applyActions]
  | cons a as ih =>
      rw [applyActions_cons]
      obtain ⟨h1, h2⟩ := ih (applyAction s a) (fun b hb => h b (List.mem_cons_of_mem _ hb))
      have ha := h a (List.mem_cons_self _ _)
      cases a with
      | pushEvent g e => simp [Action.isPush] at ha
      | registerHandler g x =>
          simp only [applyAction, registerHandler] at h1 h2
          exact ⟨h1, h2⟩

/-! ## The handler loop of `dispatch` -/

theorem runHandlers_state (beh : Behaviours ε) (god : GodId) (event : ε)
    (hs : List EventHandler) (s : Engine ε) :
    ∃ s1, (runHandlers beh god event hs s).state = some s1 := by
  induction hs generalizing s with
  | nil => exact ⟨s, rfl⟩
  | cons h hs ih =>
      simp only [runHandlers]
      cases hc : (beh h event s).completion with
      | never => exact ⟨_, rfl⟩
      | late => exact ih _
      | inTime =>
          cases hr : (beh h event s).raises with
          | true => exact ⟨_, rfl⟩
          | false => simpa using ih _

theorem runHandlers_frame (beh : Behaviours ε) (god : GodId) (event : ε)
    (hs : List EventHandler) (s s1 : Engine ε)
    (h : (runHandlers beh god event hs s).state = some s1) :
    s1.dispatched = s.dispatched ∧ s1.stop_flag_ = s.stop_flag_ := by
  induction hs generalizing s with
  | nil =>
      simp only [runHandlers, Result.state, Option.some.injEq] at h
      subst h; exact ⟨rfl, rfl⟩
  | cons x hs ih =>
      simp only [runHandlers] at h
      obtain ⟨f1, -, -, f4⟩ := applyActions_frame (beh x event s).actions
        { s with invoked := s.invoked ++ [(x, event)] }
      cases hc : (beh x event s).completion with
      | never =>
          rw [hc] at h
          simp only [Result.state, Option.some.injEq] at h
          subst h; exact ⟨f1, f4⟩
      | late =>
          rw [hc] at h
          obtain ⟨g1, g2⟩ := ih _ h
          exact ⟨g1.trans f1, g2.trans f4⟩
      | inTime =>
          rw [hc] at h
          cases hr : (beh x event s).raises with
          | true =>
              rw [hr] at h
              simp only [Result.state, if_true, Option.some.injEq] at h
              subst h; exact ⟨f1, f4⟩
          | false =>
              rw [hr] at h
              simp only [Bool.false_eq_true, if_false] at h
              obtain ⟨g1, g2⟩ := ih _ h
              exact ⟨g1.trans f1, g2.trans f4⟩

theorem runHandlers_noPush (beh : Behaviours ε) (hnp : NoPush beh) (god : GodId) (event : ε)
    (hs : List EventHandler) (s s1 : Engine ε)
    (h : (runHandlers beh god event hs s).state = some s1) :
    s1.god_event_queues_ = s.god_event_queues_ ∧ s1.pushed = s.pushed := by
  induction hs generalizing s with
  | nil =>
      simp only [runHandlers, Result.state, Option.some.injEq] at h
      subst h; exact ⟨rfl, rfl⟩
  | cons x hs ih =>
      simp only [runHandlers] at h
      obtain ⟨f1, f2⟩ := applyActions_noPush (beh x event s).actions
        { s with invoked := s.invoked ++ [(x, event)] } (hnp x event s)
      cases hc : (beh x event s).completion with
      | never =>
          rw [hc] at h
          simp only [Result.state, Option.some.injEq] at h
          subst h; exact ⟨f1, f2⟩
      | late =>
          rw [hc] at h
          obtain ⟨g1, g2⟩ := ih _ h
          exact ⟨g1.trans f1, g2.trans f2⟩
      | inTime =>
          rw [hc] at h
          cases hr : (beh x event s).raises with
          | true =>
              rw [hr] at h
              simp only [Result.state, if_true, Option.some.injEq] at h
              subst h; exact ⟨f1, f2⟩
          | false =>
              rw [hr] at h
              simp only [Bool.false_eq_true, if_false] at h
              obtain ⟨g1, g2⟩ := ih _ h
              exact ⟨g1.trans f1, g2.trans f2⟩

/-! ## The registry -/

theorem lookup_appendAt {α : Type} (k god : GodId) (x : α) (l : List (GodId × List α)) :
    lookup k (appendAt god x l) = lookup k l ++ (if god = k then [x] else []) := by
  induction l with
  | nil => simp [appendAt, lookup]
  | cons p rest ih =>
      obtain ⟨g, xs⟩ := p
      by_cases hg : g = god
      · subst hg
        by_cases hk : g = k <;> simp [appendAt, lookup, hk]
      · by_cases hk : g = k
        · subst hk
          have : ¬ god = g := fun h => hg h.symm
          simp [appendAt, lookup, hg, this]
        · simp [appendAt, lookup, hg, hk, ih]

theorem applyAction_handlers (k : GodId) (s : Engine ε) (a : Action ε) :
    lookup k (applyAction s a).handlers_ =
      lookup k s.handlers_ ++
        (match a with
          | .registerHandler g h => if g = k then [h] else []
          | .pushEvent _ _ => []) := by
  cases a with
  | pushEvent g e => simp [applyAction, pushEvent]
  | registerHandler g h => simp [applyAction, registerHandler, lookup_appendAt]

theorem applyActions_handlers_mono (k : GodId) (as : List (Action ε)) (s : Engine ε) :
    lookup k s.handlers_ <+: lookup k (applyActions s as).handlers_ := by
  induction as generalizing s with
  | nil => exact List.prefix_refl _
  | cons a as ih =>
      rw [applyActions_cons]
      refine List.IsPrefix.trans ?_ (ih (applyAction s a))
      rw [applyAction_handlers]
      exact List.prefix_append _ _

theorem applyActions_registered (k : GodId) (x : EventHandler) (as : List (Action ε))
    (s : Engine ε) (h : Action.registerHandler k x ∈ as) :
    x ∈ lookup k (applyActions s as).handlers_ := by
  induction as generalizing s with
  | nil => simp at h
  | cons a as ih =>
      rw [applyActions_cons]
      rcases List.mem_cons.mp h with h1 | h1
      · subst h1
        apply (applyActions_handlers_mono k as _).subset
        rw [applyAction_handlers]
        simp
      · exact ih _ h1

theorem runHandlers_handlers_mono (beh : Behaviours ε) (god : GodId) (event : ε) (k : GodId)
    (hs : List EventHandler) (s s1 : Engine ε)
    (h : (runHandlers beh god event hs s).state = some s1) :
    lookup k s.handlers_ <+: lookup k s1.handlers_ := by
  induction hs generalizing s with
  | nil =>
      simp only [runHandlers, Result.state, Option.some.injEq] at h
      subst h; exact List.prefix_refl _
  | cons x hs ih =>
      simp only [runHandlers] at h
      have f := applyActions_handlers_mono k (beh x event s).actions
        { s with invoked := s.invoked ++ [(x, event)] }
      cases hc : (beh x event s).completion with
      | never =>
          rw [hc] at h
          simp only [Result.state, Option.some.injEq] at h
          subst h; exact f
      | late =>
          rw [hc] at h
          have g := ih _ h
          exact f.trans g
      | inTime =>
          rw [hc] at h
          cases hr : (beh x event s).raises with
          | true =>
              rw [hr] at h
              simp only [Result.state, if_true, Option.some.injEq] at h
              subst h; exact f
          | false =>
              rw [hr] at h
              simp only [Bool.false_eq_true, if_false] at h
              exact f.trans (ih _ h)

/-- When every copied handler lets the loop go on, the handler loop returns and has
launched exactly the copied handlers, in order. -/
theorem runHandlers_proceeds (beh : Behaviours ε) (god : GodId) (event : ε)
    (hs : List EventHandler) (s : Engine ε)
    (hc : ∀ h ∈ hs, ∀ st, (beh h event st).proceeds = true) :
    ∃ s1, runHandlers beh god event hs s = .returned s1 ∧
      s1.invoked = s.invoked ++ hs.map (fun h => (h, event)) := by
  induction hs generalizing s with
  | nil => exact ⟨s, rfl, by simp⟩
  | cons x hs ih =>
      have hp := hc x (List.mem_cons_self _ _) s
      have hc2 : ∀ h ∈ hs, ∀ st, (beh h event st).proceeds = true :=
        fun h hh => hc h (List.mem_cons_of_mem _ hh)
      obtain ⟨-, f2, -, -⟩ := applyActions_frame (beh x event s).actions
        { s with invoked := s.invoked ++ [(x, event)] }
      simp only [runHandlers]
      cases hcm : (beh x event s).completion with
      | never => simp [Behaviour.proceeds, hcm] at hp
      | late =>
          obtain ⟨s1, h1, h2⟩ := ih
            { applyActions { s with invoked := s.invoked ++ [(x, event)] } (beh x event s).actions
              with diagnostics :=
                (applyActions { s with invoked := s.invoked ++ [(x, event)] }
                  (beh x event s).actions).diagnostics ++ [god] } hc2
          refine ⟨s1, h1, ?_⟩
          rw [h2]
          simp only [f2, List.map_cons, List.append_assoc, List.singleton_append]
      | inTime =>
          cases hr : (beh x event s).raises with
          | true => simp [Behaviour.proceeds, hcm, hr] at hp
          | false =>
              obtain ⟨s1, h1, h2⟩ := ih
                (applyActions { s with invoked := s.invoked ++ [(x, event)] }
                  (beh x event s).actions) hc2
              refine ⟨s1, by simpa using h1, ?_⟩
              rw [h2, f2]
              simp

theorem runHandlers_completes (beh : Behaviours ε) (hc : Completes beh) (god : GodId)
    (event : ε) (hs : List EventHandler) (s : Engine ε) :
    ∃ s1, runHandlers beh god event hs s = .returned s1 ∧
      s1.invoked = s.invoked ++ hs.map (fun h => (h, event)) :=
  runHandlers_proceeds beh god event hs s (fun h _ st => hc h event st)

/-- A handler that raises before the deadline ends the loop by its error: the handlers
before it and the handler itself have been launched, the handlers after it have not. -/
theorem runHandlers_raises (beh : Behaviours ε) (god : GodId) (event : ε)
    (pre : List EventHandler) (h : EventHandler) (post : List EventHandler) (s : Engine ε)
    (hpre : ∀ x ∈ pre, ∀ st, (beh x event st).proceeds = true)
    (hh : ∀ st, (beh h event st).completion = .inTime ∧ (beh h event st).raises = true) :
    ∃ s1, runHandlers beh god event (pre ++ h :: post) s = .threw s1 ∧
      s1.invoked = s.invoked ++ (pre ++ [h]).map (fun x => (x, event)) := by
  induction pre generalizing s with
  | nil =>
      obtain ⟨-, f2, -, -⟩ := applyActions_frame (beh h event s).actions
        { s with invoked := s.invoked ++ [(h, event)] }
      refine ⟨_, by simp only [List.nil_append, runHandlers, (hh s).1, (hh s).2, if_true]; rfl, ?_⟩
      simpa using f2
  | cons x pre ih =>
      have hp := hpre x (List.mem_cons_self _ _) s
      have hpre2 : ∀ y ∈ pre, ∀ st, (beh y event st).proceeds = true :=
        fun y hy => hpre y (List.mem_cons_of_mem _ hy)
      obtain ⟨-, f2, -, -⟩ := applyActions_frame (beh x event s).actions
        { s with invoked := s.invoked ++ [(x, event)] }
      simp only [List.cons_append, runHandlers]
      cases hcm : (beh x event s).completion with
      | never => simp [Behaviour.proceeds, hcm] at hp
      | late =>
          obtain ⟨s1, h1, h2⟩ := ih
            { applyActions { s with invoked := s.invoked ++ [(x, event)] } (beh x event s).actions
              with diagnostics :=
                (applyActions { s with invoked := s.invoked ++ [(x, event)] }
                  (beh x event s).actions).diagnostics ++ [god] } hpre2
          refine ⟨s1, h1, ?_⟩
          rw [h2]
          simp [f2]
      | inTime =>
          cases hr : (beh x event s).raises with
          | true => simp [Behaviour.proceeds, hcm, hr] at hp
          | false =>
              obtain ⟨s1, h1, h2⟩ := ih
                (applyActions { s with invoked := s.invoked ++ [(x, event)] }
                  (beh x event s).actions) hpre2
              refine ⟨s1, by simpa using h1, ?_⟩
              rw [h2, f2]
              simp

/-- A registration made by a running handler is in the registry when the loop has
ended, whatever the copied list was. -/
theorem runHandlers_registered (beh : Behaviours ε) (god : GodId) (event : ε) (k : GodId)
    (x : EventHandler) (hs : List EventHandler) (s s1 : Engine ε)
    (h : runHandlers beh god event hs s = .returned s1)
    (hx : ∃ y ∈ hs, ∀ st, Action.registerHandler k x ∈ (beh y event st).actions) :
    x ∈ lookup k s1.handlers_ := by
  induction hs generalizing s with
  | nil => obtain ⟨y, hy, -⟩ := hx; simp at hy
  | cons z hs ih =>
      obtain ⟨y, hy, hreg⟩ := hx
      simp only [runHandlers] at h
      have key : ∀ t : Engine ε, runHandlers beh god event hs t = .returned s1 →
          t.handlers_ = (applyActions { s with invoked := s.invoked ++ [(z, event)] }
            (beh z event s).actions).handlers_ → x ∈ lookup k s1.handlers_ := by
        intro t hrun ht
        rcases List.mem_cons.mp hy with h1 | h1
        · subst h1
          have m1 := applyActions_registered k x (beh y event s).actions
            { s with invoked := s.invoked ++ [(y, event)] } (hreg s)
          rw [← ht] at m1
          exact (runHandlers_handlers_mono beh god event k hs t s1
            (by rw [hrun]; rfl)).subset m1
        · exact ih t hrun ⟨y, h1, hreg⟩
      cases hc : (beh z event s).completion with
      | never => rw [hc] at h; simp at h
      | late =>
          rw [hc] at h
          exact key _ h rfl
      | inTime =>
          rw [hc] at h
          cases hr : (beh z event s).raises with
          | true => rw [hr] at h; simp at h
          | false =>
              rw [hr] at h
              simp only [Bool.false_eq_true, if_false] at h
              exact key _ h rfl

/-- Whatever the handlers do, the handlers launched by the loop are an initial segment of
the copied list, in order. -/
theorem runHandlers_invoked (beh : Behaviours ε) (god : GodId) (event : ε)
    (hs : List EventHandler) (s s1 : Engine ε)
    (h : (runHandlers beh god event hs s).state = some s1) :
    ∃ done, done <+: hs ∧ s1.invoked = s.invoked ++ done.map (fun x => (x, event)) := by
  induction hs generalizing s with
  | nil =>
      simp only [runHandlers, Result.state, Option.some.injEq] at h
      subst h; exact ⟨[], List.prefix_refl _, by simp⟩
  | cons x hs ih =>
      simp only [runHandlers] at h
      obtain ⟨-, f2, -, -⟩ := applyActions_frame (beh x event s).actions
        { s with invoked := s.invoked ++ [(x, event)] }
      have one : [x] <+: x :: hs := ⟨hs, rfl⟩
      cases hc : (beh x event s).completion with
      | never =>
          rw [hc] at h
          simp only [Result.state, Option.some.injEq] at h
          subst h; exact ⟨[x], one, by simpa using f2⟩
      | late =>
          rw [hc] at h
          dsimp only at h
          obtain ⟨d, hd, e1⟩ := ih _ h
          refine ⟨x :: d, (List.prefix_cons_inj x).mpr hd, ?_⟩
          rw [e1]; simp [f2]
      | inTime =>
          rw [hc] at h
          cases hr : (beh x event s).raises with
          | true =>
              rw [hr] at h
              simp only [Result.state, if_true, Option.some.injEq] at h
              subst h; exact ⟨[x], one, by simpa using f2⟩
          | false =>
              rw [hr] at h
              simp only [Bool.false_eq_true, if_false] at h
              obtain ⟨d, hd, e1⟩ := ih _ h
              refine ⟨x :: d, (List.prefix_cons_inj x).mpr hd, ?_⟩
              rw [e1]; simp [f2]

/-! ## `dispatch` -/

theorem dispatch_state (beh : Behaviours ε) (god : GodId) (event : ε) (s : Engine ε) :
    ∃ s1, (dispatch beh god event s).state = some s1 :=
  runHandlers_state beh god event _ _

theorem dispatch_frame (beh : Behaviours ε) (hnp : NoPush beh) (god : GodId) (event : ε)
    (s s1 : Engine ε) (h : (dispatch beh god event s).state = some s1) :
    s1.god_event_queues_ = s.god_event_queues_ ∧ s1.pushed = s.pushed ∧
    s1.dispatched = s.dispatched ++ [(god, event)] ∧ s1.stop_flag_ = s.stop_flag_ := by
  obtain ⟨a1, a2⟩ := runHandlers_noPush beh hnp god event _ _ s1 h
  obtain ⟨b1, b2⟩ := runHandlers_frame beh god event _ _ s1 h
  exact ⟨a1, a2, b1, b2⟩

theorem dispatch_completes (beh : Behaviours ε) (hc : Completes beh) (god : GodId)
    (event : ε) (s : Engine ε) :
    ∃ s1, dispatch beh god event s = .returned s1 ∧
      s1.invoked = s.invoked ++ (lookup god s.handlers_).map (fun h => (h, event)) :=
  runHandlers_completes beh hc god event _ _

/-! ## Positions in the queue store -/

theorem get?_at_split {α : Type} (pre rest : List α) :
    (pre ++ rest).get? pre.length = rest.head? := by
  induction pre with
  | nil => cases rest <;> rfl
  | cons a pre ih => simpa using ih

theorem set_at_split {α : Type} (pre rest : List α) (x y : α) :
    (pre ++ x :: rest).set pre.length y = pre ++ y :: rest := by
  induction pre with
  | nil => rfl
  | cons a pre ih => simp

/-! ## `processEvents` -/

theorem drainFrom_returned (beh : Behaviours ε) (hnp : NoPush beh) :
    ∀ (fuel : Nat) (pre rest : List (GodId × List ε)) (s s1 : Engine ε),
      s.god_event_queues_ = pre ++ rest →
      drainFrom beh fuel pre.length s = .returned s1 →
      s1.god_event_queues_ = pre ++ emptied rest ∧
      s1.dispatched = s.dispatched ++ queuedEvents rest ∧
      s1.pushed = s.pushed ∧ s1.stop_flag_ = s.stop_flag_ := by
  intro fuel
  induction fuel with
  | zero => intro pre rest s s1 _ h; simp [drainFrom] at h
  | succ fuel ih =>
      intro pre rest s s1 hq h
      rw [drainFrom, hq, get?_at_split] at h
      cases rest with
      | nil =>
          simp only [List.head?_nil, Result.returned.injEq] at h
          subst h; simp [hq, emptied, queuedEvents]
      | cons p rest =>
          obtain ⟨g, qu⟩ := p
          cases qu with
          | nil =>
              simp only [List.head?_cons] at h
              have hq2 : s.god_event_queues_ = (pre ++ [(g, [])]) ++ rest := by simp [hq]
              have := ih (pre ++ [(g, [])]) rest s s1 hq2
              simp only [List.length_append, List.length_singleton] at this
              obtain ⟨b1, b2, b3, b4⟩ := this h
              refine ⟨?_, ?_, b3, b4⟩
              · rw [b1]; simp [emptied]
              · rw [b2]; simp [queuedEvents]
          | cons e q =>
              simp only [List.head?_cons] at h
              rw [← hq] at h
              generalize hd : dispatch beh g e
                { s with god_event_queues_ := s.god_event_queues_.set pre.length (g, q) } = r at h
              cases r with
              | returned t =>
                  obtain ⟨a1, a2, a3, a4⟩ := dispatch_frame beh hnp g e _ t (by rw [hd]; rfl)
                  have hq3 : t.god_event_queues_ = pre ++ (g, q) :: rest := by
                    rw [a1]; simp only [hq, set_at_split]
                  obtain ⟨b1, b2, b3, b4⟩ := ih pre ((g, q) :: rest) t s1 hq3 h
                  refine ⟨?_, ?_, b3.trans a2, b4.trans a4⟩
                  · rw [b1]; simp [emptied]
                  · rw [b2, a3]; simp [queuedEvents]
              | threw t => simp at h
              | hung t => simp at h
              | outOfFuel => simp at h

theorem drainFrom_total (beh : Behaviours ε) (hnp : NoPush beh) :
    ∀ (fuel : Nat) (pre rest : List (GodId × List ε)) (s : Engine ε),
      s.god_event_queues_ = pre ++ rest → work rest < fuel →
      ∃ s1, (drainFrom beh fuel pre.length s).state = some s1 ∧
        (Completes beh → drainFrom beh fuel pre.length s = .returned s1) := by
  intro fuel
  induction fuel with
  | zero => intro pre rest s _ h; exact absurd h (Nat.not_lt_zero _)
  | succ fuel ih =>
      intro pre rest s hq hw
      rw [drainFrom, hq, get?_at_split]
      cases rest with
      | nil => exact ⟨s, rfl, fun _ => rfl⟩
      | cons p rest =>
          obtain ⟨g, qu⟩ := p
          cases qu with
          | nil =>
              simp only [List.head?_cons]
              have hq2 : s.god_event_queues_ = (pre ++ [(g, [])]) ++ rest := by simp [hq]
              have hw2 : work rest < fuel := by
                simp only [work, List.map_cons, List.sum_cons, List.length_nil] at hw ⊢
                omega
              have := ih (pre ++ [(g, [])]) rest s hq2 hw2
              simpa only [List.length_append, List.length_singleton] using this
          | cons e q =>
              simp only [List.head?_cons]
              rw [← hq]
              have hw2 : work ((g, q) :: rest) < fuel := by
                simp only [work, List.map_cons, List.sum_cons, List.length_cons] at hw ⊢
                omega
              obtain ⟨t0, ht0⟩ := dispatch_state beh g e
                { s with god_event_queues_ := s.god_event_queues_.set pre.length (g, q) }
              have hcomp : Completes beh → ∃ t, dispatch beh g e
                  { s with god_event_queues_ := s.god_event_queues_.set pre.length (g, q) }
                    = .returned t := fun hc =>
                (dispatch_completes beh hc g e _).imp fun _ h => h.1
              generalize hd : dispatch beh g e
                { s with god_event_queues_ := s.god_event_queues_.set pre.length (g, q) } = r
                at ht0 hcomp
              cases r with
              | returned t =>
                  obtain ⟨a1, -, -, -⟩ := dispatch_frame beh hnp g e _ t (by rw [hd]; rfl)
                  have hq3 : t.god_event_queues_ = pre ++ (g, q) :: rest := by
                    rw [a1]; simp only [hq, set_at_split]
                  exact ih pre ((g, q) :: rest) t hq3 hw2
              | threw t =>
                  exact ⟨t, rfl, fun hc => by obtain ⟨_, h⟩ := hcomp hc; simp at h⟩
              | hung t =>
                  exact ⟨t, rfl, fun hc => by obtain ⟨_, h⟩ := hcomp hc; simp at h⟩
              | outOfFuel => simp [Result.state] at ht0

/-! ## One pass of the worker loop -/

theorem passFrom_returned (beh : Behaviours ε) (hnp : NoPush beh) :
    ∀ (fuel : Nat) (pre rest : List (GodId × List ε)) (s s1 : Engine ε),
      s.god_event_queues_ = pre ++ rest →
      passFrom beh fuel pre.length s = .returned s1 →
      s1.god_event_queues_ = pre ++ serviced rest ∧
      s1.dispatched = s.dispatched ++ fronts rest ∧
      s1.pushed = s.pushed ∧ s1.stop_flag_ = s.stop_flag_ := by
  intro fuel
  induction fuel with
  | zero => intro pre rest s s1 _ h; simp [passFrom] at h
  | succ fuel ih =>
      intro pre rest s s1 hq h
      rw [passFrom, hq, get?_at_split] at h
      cases rest with
      | nil =>
          simp only [List.head?_nil, Result.returned.injEq] at h
          subst h; simp [hq, serviced, fronts]
      | cons p rest =>
          obtain ⟨g, qu⟩ := p
          cases qu with
          | nil =>
              simp only [List.head?_cons] at h
              have hq2 : s.god_event_queues_ = (pre ++ [(g, [])]) ++ rest := by simp [hq]
              have := ih (pre ++ [(g, [])]) rest s s1 hq2
              simp only [List.length_append, List.length_singleton] at this
              obtain ⟨b1, b2, b3, b4⟩ := this h
              refine ⟨?_, ?_, b3, b4⟩
              · rw [b1]; simp [serviced]
              · rw [b2]; simp [fronts]
          | cons e q =>
              simp only [List.head?_cons] at h
              rw [← hq] at h
              generalize hd : dispatch beh g e
                { s with god_event_queues_ := s.god_event_queues_.set pre.length (g, q) } = r at h
              cases r with
              | returned t =>
                  obtain ⟨a1, a2, a3, a4⟩ := dispatch_frame beh hnp g e _ t (by rw [hd]; rfl)
                  have hq3 : t.god_event_queues_ = (pre ++ [(g, q)]) ++ rest := by
                    rw [a1]; simp only [hq, set_at_split]; simp
                  have := ih (pre ++ [(g, q)]) rest t s1 hq3
                  simp only [List.length_append, List.length_singleton] at this
                  obtain ⟨b1, b2, b3, b4⟩ := this h
                  refine ⟨?_, ?_, b3.trans a2, b4.trans a4⟩
                  · rw [b1]; simp [serviced]
                  · rw [b2, a3]; simp [fronts]
              | threw t => simp at h
              | hung t => simp at h
              | outOfFuel => simp at h

/-- However the pass ends, what it has dispatched is an initial segment of the fronts of
the gods not yet visited, in iteration order. -/
theorem passFrom_segment (beh : Behaviours ε) (hnp : NoPush beh) :
    ∀ (fuel : Nat) (pre rest : List (GodId × List ε)) (s s1 : Engine ε),
      s.god_event_queues_ = pre ++ rest →
      (passFrom beh fuel pre.length s).state = some s1 →
      ∃ d, d <+: fronts rest ∧ s1.dispatched = s.dispatched ++ d := by
  intro fuel
  induction fuel with
  | zero => intro pre rest s s1 _ h; simp [passFrom, Result.state] at h
  | succ fuel ih =>
      intro pre rest s s1 hq h
      rw [passFrom, hq, get?_at_split] at h
      cases rest with
      | nil =>
          simp only [List.head?_nil, Result.state, Option.some.injEq] at h
          subst h; exact ⟨[], List.prefix_refl _, by simp⟩
      | cons p rest =>
          obtain ⟨g, qu⟩ := p
          cases qu with
          | nil =>
              simp only [List.head?_cons] at h
              have hq2 : s.god_event_queues_ = (pre ++ [(g, [])]) ++ rest := by simp [hq]
              have := ih (pre ++ [(g, [])]) rest s s1 hq2
              simp only [List.length_append, List.length_singleton] at this
              obtain ⟨d, hd, e1⟩ := this h
              exact ⟨d, by simpa [fronts] using hd, e1⟩
          | cons e q =>
              simp only [List.head?_cons] at h
              rw [← hq] at h
              have hfr : fronts ((g, e :: q) :: rest) = (g, e) :: fronts rest := by
                simp [fronts]
              generalize hd : dispatch beh g e
                { s with god_event_queues_ := s.god_event_queues_.set pre.length (g, q) } = r at h
              have hfrm : ∀ t, r.state = some t →
                  t.god_event_queues_ = (pre ++ [(g, q)]) ++ rest ∧
                  t.dispatched = s.dispatched ++ [(g, e)] := by
                intro t ht
                rw [← hd] at ht
                obtain ⟨a1, -, a3, -⟩ := dispatch_frame beh hnp g e _ t ht
                exact ⟨by rw [a1]; simp only [hq, set_at_split]; simp, a3⟩
              have one : [(g, e)] <+: (g, e) :: fronts rest := ⟨fronts rest, rfl⟩
              cases r with
              | returned t =>
                  obtain ⟨hq3, a3⟩ := hfrm t rfl
                  have := ih (pre ++ [(g, q)]) rest t s1 hq3
                  simp only [List.length_append, List.length_singleton] at this
                  obtain ⟨d, hd2, e1⟩ := this h
                  refine ⟨(g, e) :: d, ?_, ?_⟩
                  · rw [hfr]; exact (List.prefix_cons_inj _).mpr hd2
                  · rw [e1, a3]; simp
              | threw t =>
                  simp only [Result.state, Option.some.injEq] at h
                  subst h
                  exact ⟨[(g, e)], by rw [hfr]; exact one, (hfrm t rfl).2⟩
              | hung t =>
                  simp only [Result.state, Option.some.injEq] at h
                  subst h
                  exact ⟨[(g, e)], by rw [hfr]; exact one, (hfrm t rfl).2⟩
              | outOfFuel => simp [Result.state] at h

theorem passFrom_total (beh : Behaviours ε) (hnp : NoPush beh) :
    ∀ (fuel : Nat) (pre rest : List (GodId × List ε)) (s : Engine ε),
      s.god_event_queues_ = pre ++ rest → rest.length < fuel →
      ∃ s1, (passFrom beh fuel pre.length s).state = some s1 ∧
        (Completes beh → passFrom beh fuel pre.length s = .returned s1) := by
  intro fuel
  induction fuel with
  | zero => intro pre rest s _ h; exact absurd h (Nat.not_lt_zero _)
  | succ fuel ih =>
      intro pre rest s hq hw
      rw [passFrom, hq, get?_at_split]
      cases rest with
      | nil => exact ⟨s, rfl, fun _ => rfl⟩
      | cons p rest =>
          obtain ⟨g, qu⟩ := p
          have hw2 : rest.length < fuel := by
            simp only [List.length_cons] at hw; omega
          cases qu with
          | nil =>
              simp only [List.head?_cons]
              have hq2 : s.god_event_queues_ = (pre ++ [(g, [])]) ++ rest := by simp [hq]
              have := ih (pre ++ [(g, [])]) rest s hq2 hw2
              simpa only [List.length_append, List.length_singleton] using this
          | cons e q =>
              simp only [List.head?_cons]
              rw [← hq]
              obtain ⟨t0, ht0⟩ := dispatch_state beh g e
                { s with god_event_queues_ := s.god_event_queues_.set pre.length (g, q) }
              have hcomp : Completes beh → ∃ t, dispatch beh g e
                  { s with god_event_queues_ := s.god_event_queues_.set pre.length (g, q) }
                    = .returned t := fun hc =>
                (dispatch_completes beh hc g e _).imp fun _ h => h.1
              generalize hd : dispatch beh g e
                { s with god_event_queues_ := s.god_event_queues_.set pre.length (g, q) } = r
                at ht0 hcomp
              cases r with
              | returned t =>
                  obtain ⟨a1, -, -, -⟩ := dispatch_frame beh hnp g e _ t (by rw [hd]; rfl)
                  have hq3 : t.god_event_queues_ = (pre ++ [(g, q)]) ++ rest := by
                    rw [a1]; simp only [hq, set_at_split]; simp
                  have := ih (pre ++ [(g, q)]) rest t hq3 hw2
                  simpa only [List.length_append, List.length_singleton] using this
              | threw t =>
                  exact ⟨t, rfl, fun hc => by obtain ⟨_, h⟩ := hcomp hc; simp at h⟩
              | hung t =>
                  exact ⟨t, rfl, fun hc => by obtain ⟨_, h⟩ := hcomp hc; simp at h⟩
              | outOfFuel => simp [Result.state] at ht0

/-! ## The per-god ledger -/

theorem eventsFor_append_one (k g : GodId) (e : ε) (log : List (GodId × ε)) :
    eventsFor k (log ++ [(g, e)]) = eventsFor k log ++ (if g = k then [e] else []) := by
  by_cases h : g = k <;> simp [eventsFor, List.filter_append, List.filter_cons, h]

theorem appendAt_keys {α : Type} (god : GodId) (x : α) (l : List (GodId × List α)) :
    (appendAt god x l).map Prod.fst =
      if god ∈ l.map Prod.fst then l.map Prod.fst else l.map Prod.fst ++ [god] := by
  induction l with
  | nil => simp [appendAt]
  | cons p rest ih =>
      obtain ⟨g, xs⟩ := p
      by_cases hg : g = god
      · subst hg; simp [appendAt]
      · have hg2 : ¬ god = g := fun h => hg h.symm
        simp only [appendAt, hg, if_false, List.map_cons, ih, List.mem_cons, hg2, false_or]
        by_cases hm : god ∈ rest.map Prod.fst <;> simp [hm]

theorem appendAt_nodup {α : Type} (god : GodId) (x : α) (l : List (GodId × List α))
    (h : (l.map Prod.fst).Nodup) : ((appendAt god x l).map Prod.fst).Nodup := by
  rw [appendAt_keys]
  by_cases hm : god ∈ l.map Prod.fst
  · simpa [hm] using h
  · rw [if_neg hm]
    exact List.Nodup.append h (List.nodup_singleton _) (by simpa using hm)

theorem lookup_at_split {α : Type} (g : GodId) (x : List α) (pre post : List (GodId × List α))
    (h : g ∉ pre.map Prod.fst) : lookup g (pre ++ (g, x) :: post) = x := by
  induction pre with
  | nil => simp [lookup]
  | cons p pre ih =>
      obtain ⟨g1, y⟩ := p
      simp only [List.map_cons, List.mem_cons, not_or] at h
      have h1 : ¬ g1 = g := fun e => h.1 e.symm
      simp [lookup, h1, ih h.2]

theorem lookup_off_split {α : Type} (k g : GodId) (x y : List α)
    (pre post : List (GodId × List α)) (h : g ≠ k) :
    lookup k (pre ++ (g, x) :: post) = lookup k (pre ++ (g, y) :: post) := by
  induction pre with
  | nil => simp [lookup, h]
  | cons p pre ih =>
      obtain ⟨g1, z⟩ := p
      by_cases h1 : g1 = k <;> simp [lookup, h1, ih]

theorem recording_noPush : NoPush (recording : Behaviours ε) := by
  intro h e s a ha
  simp [recording] at ha

theorem recording_completes : Completes (recording : Behaviours ε) := by
  intro h e s
  rfl

theorem allQueuesEmptyFrom_iff (l : List (GodId × List ε)) :
    allQueuesEmptyFrom l = true ↔ ∀ p ∈ l, p.2 = [] := by
  induction l with
  | nil => simp [allQueuesEmptyFrom]
  | cons p rest ih =>
      obtain ⟨g, q⟩ := p
      cases q with
      | nil => simp [allQueuesEmptyFrom, ih]
      | cons e q => simp [allQueuesEmptyFrom]

theorem emptied_all (l : List (GodId × List ε)) : ∀ p ∈ emptied l, p.2 = [] := by
  intro p hp
  simp only [emptied, List.mem_map] at hp
  obtain ⟨a, -, rfl⟩ := hp
  rfl

/-! ## Threads: the locked scan -/

theorem firstNonEmpty_some (l : List (GodId × List ε)) :
    ∀ (d : Nat) (g : GodId) (e : ε) (q : List ε), firstNonEmpty l = some (d, g, e, q) →
      ∃ pre post, l = pre ++ (g, e :: q) :: post ∧ pre.length = d ∧ ∀ x ∈ pre, x.2 = [] := by
  induction l with
  | nil => intro d g e q h; simp [firstNonEmpty] at h
  | cons p rest ih =>
      intro d g e q h
      obtain ⟨g1, qu⟩ := p
      cases qu with
      | nil =>
          simp only [firstNonEmpty, Option.map_eq_some'] at h
          obtain ⟨⟨d1, g2, e2, q2⟩, h1, h2⟩ := h
          simp only [Prod.mk.injEq] at h2
          obtain ⟨rfl, rfl, rfl, rfl⟩ := h2
          obtain ⟨pre, post, e1, e2, e3⟩ := ih d1 _ _ _ h1
          refine ⟨(g1, []) :: pre, post, by simp [e1], by simp [e2], ?_⟩
          intro x hx
          rcases List.mem_cons.mp hx with rfl | hx
          · rfl
          · exact e3 x hx
      | cons e1 q1 =>
          simp only [firstNonEmpty, Option.some.injEq, Prod.mk.injEq] at h
          obtain ⟨rfl, rfl, rfl, rfl⟩ := h
          exact ⟨[], rest, rfl, rfl, by simp⟩

theorem firstNonEmpty_none (l : List (GodId × List ε)) (h : firstNonEmpty l = none) :
    ∀ x ∈ l, x.2 = [] := by
  induction l with
  | nil => simp
  | cons p rest ih =>
      obtain ⟨g1, qu⟩ := p
      cases qu with
      | nil =>
          simp only [firstNonEmpty, Option.map_eq_none'] at h
          intro x hx
          rcases List.mem_cons.mp hx with rfl | hx
          · rfl
          · exact ih h x hx
      | cons e1 q1 => simp [firstNonEmpty] at h

/-- The two ways a locked scan ends. -/
theorem lockedScan_cases (p : Nat) (s : Engine ε) (popped : List (GodId × ε)) :
    (lockedScan p s popped = (s, popped, .outside) ∧
      ∀ x ∈ s.god_event_queues_.drop p, x.2 = []) ∨
    (∃ pre post g e q, s.god_event_queues_ = pre ++ (g, e :: q) :: post ∧ p ≤ pre.length ∧
      (∀ x ∈ pre.drop p, x.2 = []) ∧
      lockedScan p s popped =
        ({ s with god_event_queues_ := pre ++ (g, q) :: post }, popped ++ [(g, e)],
          .holding pre.length g e)) := by
  unfold lockedScan
  cases hf : firstNonEmpty (s.god_event_queues_.drop p) with
  | none => exact Or.inl ⟨rfl, firstNonEmpty_none _ hf⟩
  | some r =>
      obtain ⟨d, g, e, q⟩ := r
      obtain ⟨pre, post, e1, e2, e3⟩ := firstNonEmpty_some _ d g e q hf
      have hp : p ≤ s.god_event_queues_.length := by
        by_contra hlt
        have : s.god_event_queues_.drop p = [] := List.drop_of_length_le (by omega)
        rw [this] at e1
        simp at e1
      have hsplit : s.god_event_queues_ = (s.god_event_queues_.take p ++ pre) ++ (g, e :: q) :: post := by
        rw [List.append_assoc, ← e1, List.take_append_drop]
      have hlen : (s.god_event_queues_.take p ++ pre).length = p + d := by
        simp [e2, hp]
      right
      refine ⟨s.god_event_queues_.take p ++ pre, post, g, e, q, hsplit, by omega, ?_, ?_⟩
      · intro x hx
        have : (s.god_event_queues_.take p ++ pre).drop p = pre := by
          rw [List.drop_append_of_le_length (by simp [hp])]
          simp [hp]
        rw [this] at hx
        exact e3 x hx
      · have hset : s.god_event_queues_.set (p + d) (g, q)
            = (s.god_event_queues_.take p ++ pre) ++ (g, q) :: post := by
          rw [← hlen]
          generalize s.god_event_queues_.take p ++ pre = pp at hsplit
          rw [hsplit]
          exact set_at_split _ _ _ _
        simp only [hset, hlen]

/-! ## Threads: the ledger of pops -/

theorem ledger_congr (popped : List (GodId × ε)) (s t : Engine ε)
    (hq : t.god_event_queues_ = s.god_event_queues_) (hp : t.pushed = s.pushed)
    (h : Ledger popped s) : Ledger popped t := by
  unfold Ledger keysOf at *
  rw [hq, hp]
  exact h

theorem ledger_init : Ledger ([] : List (GodId × ε)) Engine.init := by
  refine ⟨by simp [keysOf, Engine.init], ?_⟩
  intro k
  simp [Engine.init, eventsFor, lookup]

theorem ledger_pushEvent (popped : List (GodId × ε)) (god : GodId) (event : ε) (s : Engine ε)
    (h : Ledger popped s) : Ledger popped (pushEvent god event s) := by
  obtain ⟨h1, h2⟩ := h
  refine ⟨appendAt_nodup god event _ h1, ?_⟩
  intro k
  simp only [pushEvent, lookup_appendAt, eventsFor_append_one, ← List.append_assoc, h2 k]

theorem ledger_pop (popped : List (GodId × ε)) (s : Engine ε)
    (pre post : List (GodId × List ε)) (g : GodId) (e : ε) (q : List ε)
    (hq : s.god_event_queues_ = pre ++ (g, e :: q) :: post) (h : Ledger popped s) :
    Ledger (popped ++ [(g, e)]) { s with god_event_queues_ := pre ++ (g, q) :: post } := by
  obtain ⟨h1, h2⟩ := h
  unfold keysOf at h1
  have hpre : g ∉ pre.map Prod.fst := by
    rw [hq] at h1
    simp only [List.map_append, List.map_cons] at h1
    have := (List.nodup_append.mp h1).2.2
    intro hm
    exact this hm (List.mem_cons_self _ _)
  refine ⟨?_, ?_⟩
  · unfold keysOf
    rw [hq] at h1
    simpa using h1
  · intro k
    have hk2 := h2 k
    rw [hq] at hk2
    simp only [eventsFor_append_one]
    by_cases hgk : g = k
    · subst hgk
      rw [lookup_at_split g _ pre post hpre] at hk2 ⊢
      simpa using hk2
    · rw [lookup_off_split k g q (e :: q) pre post hgk]
      simpa [hgk] using hk2

theorem lookup_of_mem {α : Type} (l : List (GodId × List α)) (h : (l.map Prod.fst).Nodup)
    (k : GodId) (q : List α) (hm : (k, q) ∈ l) : lookup k l = q := by
  obtain ⟨pre, post, rfl⟩ := List.append_of_mem hm
  apply lookup_at_split
  simp only [List.map_append, List.map_cons] at h
  have := (List.nodup_append.mp h).2.2
  intro hk
  exact this hk (List.mem_cons_self _ _)

theorem lookup_of_not_mem {α : Type} (l : List (GodId × List α)) (k : GodId)
    (h : k ∉ l.map Prod.fst) : lookup k l = [] := by
  induction l with
  | nil => rfl
  | cons p rest ih =>
      obtain ⟨g, q⟩ := p
      simp only [List.map_cons, List.mem_cons, not_or] at h
      have hg : ¬ g = k := fun e => h.1 e.symm
      simp [lookup, hg, ih h.2]

/-! ## Threads: what comes later -/

theorem extends_refl (s : Engine ε) : Extends s s :=
  ⟨List.prefix_refl _, List.prefix_refl _, fun _ => List.prefix_refl _⟩

theorem extends_trans (s t u : Engine ε) (h1 : Extends s t) (h2 : Extends t u) : Extends s u :=
  ⟨h1.1.trans h2.1, h1.2.1.trans h2.2.1, fun g => (h1.2.2 g).trans (h2.2.2 g)⟩

theorem extends_pushEvent (god : GodId) (event : ε) (s : Engine ε) :
    Extends s (pushEvent god event s) := by
  refine ⟨List.prefix_append _ _, ?_, fun _ => List.prefix_refl _⟩
  unfold keysOf
  simp only [pushEvent, appendAt_keys]
  split
  · exact List.prefix_refl _
  · exact List.prefix_append _ _

theorem extends_registerHandler (god : GodId) (handler : EventHandler) (s : Engine ε) :
    Extends s (registerHandler god handler s) := by
  refine ⟨List.prefix_refl _, List.prefix_refl _, fun g => ?_⟩
  simp only [registerHandler, lookup_appendAt]
  exact List.prefix_append _ _

theorem extends_congr (s t u : Engine ε) (hq : u.god_event_queues_ = t.god_event_queues_)
    (hp : u.pushed = t.pushed) (hh : u.handlers_ = t.handlers_) (h : Extends s t) :
    Extends s u := by
  unfold Extends keysOf at *
  rw [hq, hp, hh]
  exact h

/-- A property of the engine that `pushEvent` and `registerHandler` keep, and that does
not look at the launch and timeout logs, is kept by the engine calls of a handler. -/
theorem applyActions_preserves (P : Engine ε → Prop)
    (hpush : ∀ s g e, P s → P (pushEvent g e s))
    (hreg : ∀ s g h, P s → P (registerHandler g h s))
    (as : List (Action ε)) (s : Engine ε) (h : P s) : P (applyActions s as) := by
  induction as generalizing s with
  | nil => exact h
  | cons a as ih =>
      rw [applyActions_cons]
      apply ih
      cases a with
      | pushEvent g e => exact hpush s g e h
      | registerHandler g x => exact hreg s g x h

/-- Such a property is kept by the handler loop, however it ends. -/
theorem runHandlers_preserves (beh : Behaviours ε) (P : Engine ε → Prop)
    (hpush : ∀ s g e, P s → P (pushEvent g e s))
    (hreg : ∀ s g h, P s → P (registerHandler g h s))
    (hlog : ∀ (s : Engine ε) inv dg, P s → P { s with invoked := inv, diagnostics := dg })
    (god : GodId) (event : ε) (hs : List EventHandler) (s s1 : Engine ε) (h : P s)
    (hr : (runHandlers beh god event hs s).state = some s1) : P s1 := by
  induction hs generalizing s with
  | nil =>
      simp only [runHandlers, Result.state, Option.some.injEq] at hr
      subst hr; exact h
  | cons x hs ih =>
      simp only [runHandlers] at hr
      have f : P (applyActions { s with invoked := s.invoked ++ [(x, event)] }
          (beh x event s).actions) :=
        applyActions_preserves P hpush hreg _ _ (hlog s _ s.diagnostics h)
      have f2 : P { applyActions { s with invoked := s.invoked ++ [(x, event)] }
            (beh x event s).actions with
          diagnostics := (applyActions { s with invoked := s.invoked ++ [(x, event)] }
            (beh x event s).actions).diagnostics ++ [god] } :=
        hlog _ _ _ f
      cases hc : (beh x event s).completion with
      | never =>
          rw [hc] at hr
          simp only [Result.state, Option.some.injEq] at hr
          subst hr; exact f2
      | late =>
          rw [hc] at hr
          exact ih _ f2 hr
      | inTime =>
          rw [hc] at hr
          cases hrs : (beh x event s).raises with
          | true =>
              rw [hrs] at hr
              simp only [Result.state, if_true, Option.some.injEq] at hr
              subst hr; exact f
          | false =>
              rw [hrs] at hr
              simp only [Bool.false_eq_true, if_false] at hr
              exact ih _ f hr

/-- The handler loop keeps the ledger of pops and only adds pushes, gods and
registrations. -/
theorem runHandlers_ledger_extends (beh : Behaviours ε) (popped : List (GodId × ε))
    (god : GodId) (event : ε) (hs : List EventHandler) (s s1 : Engine ε)
    (h : Ledger popped s) (hr : (runHandlers beh god event hs s).state = some s1) :
    Ledger popped s1 ∧ Extends s s1 := by
  refine runHandlers_preserves beh (fun t => Ledger popped t ∧ Extends s t) ?_ ?_ ?_
    god event hs s s1 ⟨h, extends_refl s⟩ hr
  · intro t g e ht
    exact ⟨ledger_pushEvent popped g e t ht.1,
      extends_trans s t _ ht.2 (extends_pushEvent g e t)⟩
  · intro t g x ht
    exact ⟨ledger_congr popped t _ rfl rfl ht.1,
      extends_trans s t _ ht.2 (extends_registerHandler g x t)⟩
  · intro t inv dg ht
    exact ⟨ledger_congr popped t _ rfl rfl ht.1, extends_congr s t _ rfl rfl rfl ht.2⟩

/-! ## Threads: progress of a drain -/

theorem eventsFor_mono (k : GodId) (l l2 : List (GodId × ε)) (h : l <+: l2) :
    eventsFor k l <+: eventsFor k l2 :=
  List.IsPrefix.map _ (List.IsPrefix.filter _ h)

theorem drained_mono (mark : Nat) (pushed pushed2 popped popped2 : List (GodId × ε))
    (k : GodId) (h1 : pushed <+: pushed2) (h2 : popped <+: popped2)
    (h : Drained mark pushed popped k) : Drained mark pushed2 popped2 k := by
  obtain ⟨m, a, b, c⟩ := h
  obtain ⟨t, rfl⟩ := h1
  refine ⟨m, a, by simp only [List.length_append]; omega, ?_⟩
  rw [List.take_append_of_le_length b]
  exact c.trans (eventsFor_mono k _ _ h2)

theorem drained_now (mark : Nat) (popped : List (GodId × ε)) (s : Engine ε) (k : GodId)
    (hl : Ledger popped s) (hm : mark ≤ s.pushed.length)
    (he : lookup k s.god_event_queues_ = []) : Drained mark s.pushed popped k := by
  refine ⟨s.pushed.length, hm, le_refl _, ?_⟩
  have := hl.2 k
  rw [he, List.append_nil] at this
  rw [List.take_length, this]

theorem take_of_isPrefix {α : Type} (l l2 : List α) (i : Nat) (h : l <+: l2)
    (hi : i ≤ l.length) : l2.take i = l.take i := by
  obtain ⟨t, rfl⟩ := h
  exact List.take_append_of_le_length hi

/-! ## Threads: one move of a consumer -/

theorem lockedScan_ledger (p : Nat) (s : Engine ε) (popped : List (GodId × ε))
    (h : Ledger popped s) :
    Ledger (lockedScan p s popped).2.1 (lockedScan p s popped).1 := by
  rcases lockedScan_cases p s popped with ⟨h1, -⟩ | ⟨pre, post, g, e, q, hq, -, -, h1⟩
  · rw [h1]; exact h
  · rw [h1]; exact ledger_pop popped s pre post g e q hq h

theorem lockedScan_frame (p : Nat) (s : Engine ε) (popped : List (GodId × ε)) :
    (lockedScan p s popped).1.pushed = s.pushed ∧
    keysOf (lockedScan p s popped).1 = keysOf s ∧
    (lockedScan p s popped).1.handlers_ = s.handlers_ ∧
    (lockedScan p s popped).1.dispatched = s.dispatched ∧
    (lockedScan p s popped).1.invoked = s.invoked ∧
    popped <+: (lockedScan p s popped).2.1 := by
  rcases lockedScan_cases p s popped with ⟨h1, -⟩ | ⟨pre, post, g, e, q, hq, -, -, h1⟩
  · rw [h1]; exact ⟨rfl, rfl, rfl, rfl, rfl, List.prefix_refl _⟩
  · rw [h1]
    refine ⟨rfl, ?_, rfl, rfl, rfl, List.prefix_append _ _⟩
    simp [keysOf, hq]

theorem lockedScan_once (p : Nat) (s : Engine ε) (popped other : List (GodId × ε))
    (h : (s.dispatched ++ other).Perm popped) :
    ((lockedScan p s popped).1.dispatched ++ ((lockedScan p s popped).2.2.held ++ other)).Perm
      (lockedScan p s popped).2.1 := by
  rcases lockedScan_cases p s popped with ⟨h1, -⟩ | ⟨pre, post, g, e, q, hq, -, -, h1⟩
  · rw [h1]; simpa [Consumer.held] using h
  · rw [h1]
    simp only [Consumer.held, List.singleton_append]
    exact (List.perm_middle.trans (List.Perm.cons _ h)).trans
      (List.perm_append_singleton _ _).symm

theorem advance_ledger (beh : Behaviours ε) (drain : Bool) (s : Engine ε)
    (popped : List (GodId × ε)) (q : Consumer ε) (h : Ledger popped s) :
    Ledger (advance beh drain s popped q).2.1 (advance beh drain s popped q).1 := by
  cases q with
  | outside => exact lockedScan_ledger 0 s popped h
  | holding i g e => exact ledger_congr popped s _ rfl rfl h
  | launching i g e rest =>
      cases rest with
      | nil => exact lockedScan_ledger _ s popped h
      | cons x hs =>
          simp only [advance]
          cases hd : runHandlers beh g e [x] s with
          | returned t => exact (runHandlers_ledger_extends beh popped g e [x] s t h (by rw [hd]; rfl)).1
          | threw t => exact (runHandlers_ledger_extends beh popped g e [x] s t h (by rw [hd]; rfl)).1
          | hung t => exact (runHandlers_ledger_extends beh popped g e [x] s t h (by rw [hd]; rfl)).1
          | outOfFuel => exact h
  | failed =>
      cases drain with
      | false => exact h
      | true => exact lockedScan_ledger 0 s popped h
  | blocked => exact h

/-- A move of a consumer only adds pushes, gods, registrations and pops. -/
theorem advance_extends (beh : Behaviours ε) (drain : Bool) (s : Engine ε)
    (popped : List (GodId × ε)) (q : Consumer ε) (h : Ledger popped s) :
    Extends s (advance beh drain s popped q).1 ∧ popped <+: (advance beh drain s popped q).2.1 := by
  have scan : ∀ p, Extends s (lockedScan p s popped).1 ∧ popped <+: (lockedScan p s popped).2.1 := by
    intro p
    obtain ⟨a, b, c, -, -, f⟩ := lockedScan_frame p s popped
    exact ⟨⟨by rw [a], by rw [b], fun g => by rw [c]⟩, f⟩
  cases q with
  | outside => exact scan 0
  | holding i g e => exact ⟨extends_congr s s _ rfl rfl rfl (extends_refl s), List.prefix_refl _⟩
  | launching i g e rest =>
      cases rest with
      | nil => exact scan _
      | cons x hs =>
          simp only [advance]
          cases hd : runHandlers beh g e [x] s with
          | returned t =>
              exact ⟨(runHandlers_ledger_extends beh popped g e [x] s t h (by rw [hd]; rfl)).2,
                List.prefix_refl _⟩
          | threw t =>
              exact ⟨(runHandlers_ledger_extends beh popped g e [x] s t h (by rw [hd]; rfl)).2,
                List.prefix_refl _⟩
          | hung t =>
              exact ⟨(runHandlers_ledger_extends beh popped g e [x] s t h (by rw [hd]; rfl)).2,
                List.prefix_refl _⟩
          | outOfFuel => exact ⟨extends_refl s, List.prefix_refl _⟩
  | failed =>
      cases drain with
      | false => exact ⟨extends_refl s, List.prefix_refl _⟩
      | true => exact scan 0
  | blocked => exact ⟨extends_refl s, List.prefix_refl _⟩

/-- A move of a consumer keeps the count of events: what has been handed to `dispatch`
together with what is held is what has been popped. -/
theorem advance_once (beh : Behaviours ε) (drain : Bool) (s : Engine ε)
    (popped other : List (GodId × ε)) (q : Consumer ε)
    (h : (s.dispatched ++ (q.held ++ other)).Perm popped) :
    ((advance beh drain s popped q).1.dispatched ++
      ((advance beh drain s popped q).2.2.held ++ other)).Perm
      (advance beh drain s popped q).2.1 := by
  cases q with
  | outside => exact lockedScan_once 0 s popped other (by simpa [Consumer.held] using h)
  | holding i g e => simpa [advance, Consumer.held] using h
  | launching i g e rest =>
      cases rest with
      | nil => exact lockedScan_once _ s popped other (by simpa [Consumer.held] using h)
      | cons x hs =>
          simp only [advance]
          cases hd : runHandlers beh g e [x] s with
          | returned t =>
              have := (runHandlers_frame beh g e [x] s t (by rw [hd]; rfl)).1
              simpa [Consumer.held, this] using h
          | threw t =>
              have := (runHandlers_frame beh g e [x] s t (by rw [hd]; rfl)).1
              simpa [Consumer.held, this] using h
          | hung t =>
              have := (runHandlers_frame beh g e [x] s t (by rw [hd]; rfl)).1
              simpa [Consumer.held, this] using h
          | outOfFuel => simpa [Consumer.held] using h
  | failed =>
      cases drain with
      | false => simpa [advance, Consumer.held] using h
      | true => exact lockedScan_once 0 s popped other (by simpa [Consumer.held] using h)
  | blocked => simpa [advance, Consumer.held] using h

theorem fromCopy_extends (s t : Engine ε) (q : Consumer ε) (h : Extends s t)
    (hq : q.FromCopy s) : q.FromCopy t := by
  cases q with
  | launching i g e rest =>
      intro x hx
      exact (h.2.2 g).subset (hq x hx)
  | outside => trivial
  | holding i g e => trivial
  | failed => trivial
  | blocked => trivial

theorem advance_fromCopy (beh : Behaviours ε) (drain : Bool) (s : Engine ε)
    (popped : List (GodId × ε)) (q : Consumer ε) (hl : Ledger popped s) (h : q.FromCopy s) :
    (advance beh drain s popped q).2.2.FromCopy (advance beh drain s popped q).1 := by
  have scan : ∀ p, (lockedScan p s popped).2.2.FromCopy (lockedScan p s popped).1 := by
    intro p
    rcases lockedScan_cases p s popped with ⟨h1, -⟩ | ⟨pre, post, g, e, q, hq, -, -, h1⟩
    · rw [h1]; trivial
    · rw [h1]; trivial
  cases q with
  | outside => exact scan 0
  | holding i g e =>
      intro x hx
      exact hx
  | launching i g e rest =>
      cases rest with
      | nil => exact scan _
      | cons x hs =>
          have hext := (advance_extends beh drain s popped (.launching i g e (x :: hs)) hl).1
          simp only [advance] at hext ⊢
          cases hd : runHandlers beh g e [x] s with
          | returned t =>
              rw [hd] at hext
              intro y hy
              exact (hext.2.2 g).subset (h y (List.mem_cons_of_mem _ hy))
          | threw t => trivial
          | hung t => trivial
          | outOfFuel => trivial
  | failed =>
      cases drain with
      | false => trivial
      | true => exact scan 0
  | blocked => trivial

theorem drained_of_entry (mark : Nat) (popped : List (GodId × ε)) (s : Engine ε)
    (hl : Ledger popped s) (hm : mark ≤ s.pushed.length) (x : GodId × List ε)
    (hx : x ∈ s.god_event_queues_) (he : x.2 = []) : Drained mark s.pushed popped x.1 := by
  apply drained_now mark popped s x.1 hl hm
  obtain ⟨k, q⟩ := x
  simp only at he
  subst he
  exact lookup_of_mem _ hl.1 k [] hx

theorem callProgress_extends (c : Threads ε) (t : Engine ε) (popped2 : List (GodId × ε))
    (w : Consumer ε) (hx : Extends c.engine t) (hp : c.popped <+: popped2)
    (h : CallProgress c) :
    CallProgress { engine := t, popped := popped2, worker := w, caller := c.caller,
                   callMark := c.callMark } := by
  have hlen : c.engine.god_event_queues_.length ≤ t.god_event_queues_.length := by
    have := hx.2.1.length_le
    simpa [keysOf] using this
  have key : ∀ i, i < c.engine.god_event_queues_.length →
      (∀ k ∈ (keysOf c.engine).take i, Drained c.callMark c.engine.pushed c.popped k) →
      i < t.god_event_queues_.length ∧
      ∀ k ∈ (keysOf t).take i, Drained c.callMark t.pushed popped2 k := by
    intro i hi hk
    refine ⟨by omega, ?_⟩
    intro k hkm
    rw [take_of_isPrefix _ _ i hx.2.1 (by simp [keysOf]; omega)] at hkm
    exact drained_mono _ _ _ _ _ k hx.1 hp (hk k hkm)
  unfold CallProgress at h ⊢
  cases hc : c.caller with
  | outside =>
      rw [hc] at h
      intro k
      exact drained_mono _ _ _ _ _ k hx.1 hp (h k)
  | holding i g e =>
      rw [hc] at h
      exact key i h.1 h.2
  | launching i g e rest =>
      rw [hc] at h
      exact key i h.1 h.2
  | failed => trivial
  | blocked => trivial

/-- Where a locked scan of the caller ends, the gods before that position have been
found empty since the call started. -/
theorem lockedScan_progress (p : Nat) (s : Engine ε) (popped : List (GodId × ε)) (mark : Nat)
    (w : Consumer ε) (hl : Ledger popped s) (hm : mark ≤ s.pushed.length)
    (hbefore : ∀ k ∈ (keysOf s).take p, Drained mark s.pushed popped k) :
    CallProgress { engine := (lockedScan p s popped).1, popped := (lockedScan p s popped).2.1,
                   worker := w, caller := (lockedScan p s popped).2.2, callMark := mark } := by
  rcases lockedScan_cases p s popped with ⟨h1, h2⟩ | ⟨pre, post, g, e, q, hq, hp, h2, h1⟩
  · rw [h1]
    intro k
    by_cases hk : k ∈ keysOf s
    · rw [← List.take_append_drop p (keysOf s), List.mem_append] at hk
      rcases hk with hk | hk
      · exact hbefore k hk
      · simp only [keysOf, ← List.map_drop, List.mem_map] at hk
        obtain ⟨x, hx, rfl⟩ := hk
        exact drained_of_entry mark popped s hl hm x (List.mem_of_mem_drop hx) (h2 x hx)
    · exact drained_now mark popped s k hl hm (lookup_of_not_mem _ k hk)
  · rw [h1]
    refine ⟨by simp, ?_⟩
    intro k hk
    simp only [keysOf, List.map_append, List.map_cons] at hk
    rw [List.take_append_of_le_length (by simp), List.take_of_length_le (by simp)] at hk
    have old : Drained mark s.pushed popped k := by
      simp only [List.mem_map] at hk
      obtain ⟨x, hx, rfl⟩ := hk
      rw [← List.take_append_drop p pre, List.mem_append] at hx
      rcases hx with hx | hx
      · apply hbefore
        simp only [keysOf, hq, List.map_append, List.map_cons]
        rw [List.take_append_of_le_length (by simpa using hp), ← List.map_take]
        exact List.mem_map_of_mem _ hx
      · apply drained_of_entry mark popped s hl hm x ?_ (h2 x hx)
        rw [hq]
        exact List.mem_append_left _ (List.mem_of_mem_drop hx)
    exact drained_mono _ _ _ _ _ k (List.prefix_refl _) (List.prefix_append _ _) old

/-! ## Threads: what every schedule keeps -/

theorem inv_init : Inv (Threads.init : Threads ε) :=
  { ledger := ledger_init
    once := by simp [Threads.init, Engine.init, Consumer.held]
    mark := by simp [Threads.init]
    progress := by
      intro k
      exact ⟨0, le_refl _, Nat.zero_le _, by simp [eventsFor, Threads.init]⟩
    copyW := trivial
    copyC := trivial }

theorem inv_engineCall (c : Threads ε) (t : Engine ε) (h : Inv c)
    (hl : Ledger c.popped t) (hx : Extends c.engine t)
    (hd : t.dispatched = c.engine.dispatched) : Inv { c with engine := t } :=
  { ledger := hl
    once := by simpa [hd] using h.once
    mark := h.mark.trans hx.1.length_le
    progress := callProgress_extends c t c.popped c.worker hx (List.prefix_refl _) h.progress
    copyW := fromCopy_extends _ _ _ hx h.copyW
    copyC := fromCopy_extends _ _ _ hx h.copyC }

theorem inv_workerGo (beh : Behaviours ε) (c : Threads ε) (h : Inv c) :
    Inv (move beh c .workerGo) := by
  obtain ⟨hx, hp⟩ := advance_extends beh false c.engine c.popped c.worker h.ledger
  exact
    { ledger := advance_ledger beh false c.engine c.popped c.worker h.ledger
      once := advance_once beh false c.engine c.popped c.caller.held c.worker h.once
      mark := h.mark.trans hx.1.length_le
      progress := callProgress_extends c _ _ _ hx hp h.progress
      copyW := advance_fromCopy beh false c.engine c.popped c.worker h.ledger h.copyW
      copyC := fromCopy_extends _ _ _ hx h.copyC }

theorem inv_callerGo (beh : Behaviours ε) (c : Threads ε) (h : Inv c) :
    Inv (move beh c .callerGo) := by
  obtain ⟨hx, hp⟩ := advance_extends beh true c.engine c.popped c.caller h.ledger
  have honce : (c.engine.dispatched ++ (c.caller.held ++ c.worker.held)).Perm c.popped :=
    (List.Perm.append_left _ List.perm_append_comm).trans h.once
  have hmark : (if c.caller.startsCall then c.engine.pushed.length else c.callMark)
      ≤ c.engine.pushed.length := by
    split
    · exact le_refl _
    · exact h.mark
  refine
    { ledger := advance_ledger beh true c.engine c.popped c.caller h.ledger
      once := (List.Perm.append_left _ List.perm_append_comm).trans
        (advance_once beh true c.engine c.popped c.worker.held c.caller honce)
      mark := hmark.trans hx.1.length_le
      progress := ?_
      copyW := fromCopy_extends _ _ _ hx h.copyW
      copyC := advance_fromCopy beh true c.engine c.popped c.caller h.ledger h.copyC }
  have hprog := h.progress
  unfold CallProgress at hprog
  simp only [move]
  cases hc : c.caller with
  | outside =>
      simp only [Consumer.startsCall, if_true, advance]
      exact lockedScan_progress 0 c.engine c.popped _ c.worker h.ledger (le_refl _)
        (by simp)
  | holding i g e =>
      rw [hc] at hprog
      simp only [Consumer.startsCall, advance]
      exact hprog
  | launching i g e rest =>
      rw [hc] at hprog
      cases rest with
      | nil =>
          simp only [Consumer.startsCall, advance, if_true]
          exact lockedScan_progress i c.engine c.popped _ c.worker h.ledger h.mark hprog.2
      | cons x hs =>
          have hcp := callProgress_extends c (advance beh true c.engine c.popped c.caller).1
            c.popped c.worker hx (List.prefix_refl _) h.progress
          unfold CallProgress at hcp ⊢
          rw [hc] at hcp
          simp only [advance, Consumer.startsCall] at hcp ⊢
          cases hd : runHandlers beh g e [x] c.engine with
          | returned t => rw [hd] at hcp; exact hcp
          | threw t => trivial
          | hung t => trivial
          | outOfFuel => trivial
  | failed =>
      simp only [Consumer.startsCall, if_true, advance]
      exact lockedScan_progress 0 c.engine c.popped _ c.worker h.ledger (le_refl _)
        (by simp)
  | blocked => simp only [advance]; trivial

theorem inv_move (beh : Behaviours ε) (c : Threads ε) (m : Move ε) (h : Inv c) :
    Inv (move beh c m) := by
  cases m with
  | pushEvent g e =>
      exact inv_engineCall c _ h (ledger_pushEvent _ g e _ h.ledger) (extends_pushEvent g e _) rfl
  | registerHandler g x =>
      exact inv_engineCall c _ h (ledger_congr _ _ _ rfl rfl h.ledger)
        (extends_registerHandler g x _) rfl
  | workerGo => exact inv_workerGo beh c h
  | callerGo => exact inv_callerGo beh c h

theorem inv_exec (beh : Behaviours ε) (ms : List (Move ε)) (c : Threads ε) (h : Inv c) :
    Inv (exec beh ms c) := by
  induction ms generalizing c with
  | nil => exact h
  | cons m ms ih => exact ih _ (inv_move beh c m h)

/-! ## Threads: a single consumer -/

theorem lockedScan_fifo (p : Nat) (s : Engine ε) (popped : List (GodId × ε))
    (h : s.dispatched = popped) :
    (lockedScan p s popped).1.dispatched ++ (lockedScan p s popped).2.2.held
      = (lockedScan p s popped).2.1 := by
  rcases lockedScan_cases p s popped with ⟨h1, -⟩ | ⟨pre, post, g, e, q, hq, -, -, h1⟩
  · rw [h1]; simpa [Consumer.held] using h
  · rw [h1]; simp [Consumer.held, h]

/-- A consumer alone hands the events to `dispatch` in the order in which it pops
them. -/
theorem advance_fifo (beh : Behaviours ε) (drain : Bool) (s : Engine ε)
    (popped : List (GodId × ε)) (q : Consumer ε) (h : s.dispatched ++ q.held = popped) :
    (advance beh drain s popped q).1.dispatched ++ (advance beh drain s popped q).2.2.held
      = (advance beh drain s popped q).2.1 := by
  cases q with
  | outside => exact lockedScan_fifo 0 s popped (by simpa [Consumer.held] using h)
  | holding i g e => simpa [advance, Consumer.held] using h
  | launching i g e rest =>
      cases rest with
      | nil => exact lockedScan_fifo _ s popped (by simpa [Consumer.held] using h)
      | cons x hs =>
          simp only [advance]
          cases hd : runHandlers beh g e [x] s with
          | returned t =>
              have := (runHandlers_frame beh g e [x] s t (by rw [hd]; rfl)).1
              simpa [Consumer.held, this] using h
          | threw t =>
              have := (runHandlers_frame beh g e [x] s t (by rw [hd]; rfl)).1
              simpa [Consumer.held, this] using h
          | hung t =>
              have := (runHandlers_frame beh g e [x] s t (by rw [hd]; rfl)).1
              simpa [Consumer.held, this] using h
          | outOfFuel => simpa [Consumer.held] using h
  | failed =>
      cases drain with
      | false => simpa [advance, Consumer.held] using h
      | true => exact lockedScan_fifo 0 s popped (by simpa [Consumer.held] using h)
  | blocked => simpa [advance, Consumer.held] using h

/-- While the caller never enters `processEvents()`, the worker is the only consumer: the
events handed to `dispatch`, followed by the one the worker holds, are the events popped,
in pop order. -/
theorem exec_workerOnly (beh : Behaviours ε) (ms : List (Move ε)) (c : Threads ε)
    (hms : Move.callerGo ∉ ms) (hc : c.caller = .outside)
    (h : c.engine.dispatched ++ c.worker.held = c.popped) :
    (exec beh ms c).caller = .outside ∧
    (exec beh ms c).engine.dispatched ++ (exec beh ms c).worker.held = (exec beh ms c).popped := by
  induction ms generalizing c with
  | nil => exact ⟨hc, h⟩
  | cons m ms ih =>
      have hm : m ≠ .callerGo := fun e => hms (e ▸ List.mem_cons_self _ _)
      have hms2 : Move.callerGo ∉ ms := fun e => hms (List.mem_cons_of_mem _ e)
      apply ih (move beh c m) hms2
      · cases m with
        | pushEvent g e => exact hc
        | registerHandler g x => exact hc
        | workerGo => exact hc
        | callerGo => exact absurd rfl hm
      · cases m with
        | pushEvent g e => exact h
        | registerHandler g x => exact h
        | workerGo => exact advance_fifo beh false c.engine c.popped c.worker h
        | callerGo => exact absurd rfl hm

/-- While the worker makes no move, the caller is the only consumer. -/
theorem exec_callerOnly (beh : Behaviours ε) (ms : List (Move ε)) (c : Threads ε)
    (hms : Move.workerGo ∉ ms) (hc : c.worker = .outside)
    (h : c.engine.dispatched ++ c.caller.held = c.popped) :
    (exec beh ms c).worker = .outside ∧
    (exec beh ms c).engine.dispatched ++ (exec beh ms c).caller.held = (exec beh ms c).popped := by
  induction ms generalizing c with
  | nil => exact ⟨hc, h⟩
  | cons m ms ih =>
      have hm : m ≠ .workerGo := fun e => hms (e ▸ List.mem_cons_self _ _)
      have hms2 : Move.workerGo ∉ ms := fun e => hms (List.mem_cons_of_mem _ e)
      apply ih (move beh c m) hms2
      · cases m with
        | pushEvent g e => exact hc
        | registerHandler g x => exact hc
        | callerGo => exact hc
        | workerGo => exact absurd rfl hm
      · cases m with
        | pushEvent g e => exact h
        | registerHandler g x => exact h
        | callerGo => exact advance_fifo beh true c.engine c.popped c.caller h
        | workerGo => exact absurd rfl hm

theorem eventsFor_append (k : GodId) (l l2 : List (GodId × ε)) :
    eventsFor k (l ++ l2) = eventsFor k l ++ eventsFor k l2 := by
  simp [eventsFor, List.filter_append]

/-! ## Threads: launches and the copy of the handler list -/

theorem lockedScan_not_launching (p : Nat) (s : Engine ε) (popped : List (GodId × ε))
    (i : Nat) (g : GodId) (e : ε) (rest : List EventHandler) :
    (lockedScan p s popped).2.2 ≠ .launching i g e rest := by
  rcases lockedScan_cases p s popped with ⟨h1, -⟩ | ⟨pre, post, g1, e1, q, hq, -, -, h1⟩
  · rw [h1]; simp
  · rw [h1]; simp

/-- What one move of a consumer adds to the launch log and to the log of `dispatch`
calls: a launch is of a handler of the copy in progress, and a dispatch in progress
afterwards is either the one just begun or the one that was in progress. -/
theorem advance_logs (beh : Behaviours ε) (drain : Bool) (s : Engine ε)
    (popped : List (GodId × ε)) (q : Consumer ε) :
    ∃ ni nd, (advance beh drain s popped q).1.invoked = s.invoked ++ ni ∧
      (advance beh drain s popped q).1.dispatched = s.dispatched ++ nd ∧
      (∀ h e, (h, e) ∈ ni → ∃ i g rest, q = .launching i g e rest ∧ h ∈ rest) ∧
      (∀ i g e rest, (advance beh drain s popped q).2.2 = .launching i g e rest →
        (g, e) ∈ nd ∨ ∃ rest0, q = .launching i g e rest0 ∧ ∀ h ∈ rest, h ∈ rest0) := by
  have scan : ∀ p, ∃ ni nd, (lockedScan p s popped).1.invoked = s.invoked ++ ni ∧
      (lockedScan p s popped).1.dispatched = s.dispatched ++ nd ∧
      (∀ h e, (h, e) ∈ ni → ∃ i g rest, q = .launching i g e rest ∧ h ∈ rest) ∧
      (∀ i g e rest, (lockedScan p s popped).2.2 = .launching i g e rest →
        (g, e) ∈ nd ∨ ∃ rest0, q = .launching i g e rest0 ∧ ∀ h ∈ rest, h ∈ rest0) := by
    intro p
    obtain ⟨-, -, -, d, iv, -⟩ := lockedScan_frame p s popped
    refine ⟨[], [], by simp [iv], by simp [d], by simp, ?_⟩
    intro i g e rest hr
    exact absurd hr (lockedScan_not_launching p s popped i g e rest)
  have stay : ∀ q2 : Consumer ε, (∀ i g e rest, q2 ≠ .launching i g e rest) →
      ∃ ni nd, s.invoked = s.invoked ++ ni ∧ s.dispatched = s.dispatched ++ nd ∧
      (∀ h e, (h, e) ∈ ni → ∃ i g rest, q = .launching i g e rest ∧ h ∈ rest) ∧
      (∀ i g e rest, q2 = .launching i g e rest →
        (g, e) ∈ nd ∨ ∃ rest0, q = .launching i g e rest0 ∧ ∀ h ∈ rest, h ∈ rest0) := by
    intro q2 hq2
    exact ⟨[], [], by simp, by simp, by simp, fun i g e rest hr => absurd hr (hq2 i g e rest)⟩
  cases q with
  | outside => exact scan 0
  | holding i g e =>
      refine ⟨[], [(g, e)], by simp [advance], by simp [advance], by simp, ?_⟩
      intro i2 g2 e2 rest hr
      simp only [advance, Consumer.launching.injEq] at hr
      obtain ⟨-, rfl, rfl, -⟩ := hr
      exact Or.inl (List.mem_singleton_self _)
  | launching i g e rest =>
      cases rest with
      | nil => exact scan _
      | cons x hs =>
          obtain ⟨t0, ht0⟩ := runHandlers_state beh g e [x] s
          obtain ⟨done, hdone, hinv⟩ := runHandlers_invoked beh g e [x] s t0 ht0
          have hdisp := (runHandlers_frame beh g e [x] s t0 ht0).1
          have hni : ∀ h e2, (h, e2) ∈ done.map (fun y => (y, e)) →
              ∃ i2 g2 rest2, Consumer.launching i g e (x :: hs) = .launching i2 g2 e2 rest2 ∧
                h ∈ rest2 := by
            intro h e2 hm
            simp only [List.mem_map, Prod.mk.injEq] at hm
            obtain ⟨y, hy, rfl, rfl⟩ := hm
            have : y ∈ [x] := hdone.subset hy
            simp only [List.mem_singleton] at this
            subst this
            exact ⟨i, g, y :: hs, rfl, List.mem_cons_self _ _⟩
          simp only [advance]
          cases hd : runHandlers beh g e [x] s with
          | returned t =>
              rw [hd] at ht0
              simp only [Result.state, Option.some.injEq] at ht0
              subst ht0
              refine ⟨_, [], hinv, by simp [hdisp], hni, ?_⟩
              intro i2 g2 e2 rest hr
              simp only [Consumer.launching.injEq] at hr
              obtain ⟨rfl, rfl, rfl, rfl⟩ := hr
              exact Or.inr ⟨x :: hs, rfl, fun h hh => List.mem_cons_of_mem _ hh⟩
          | threw t =>
              rw [hd] at ht0
              simp only [Result.state, Option.some.injEq] at ht0
              subst ht0
              exact ⟨_, [], hinv, by simp [hdisp], hni, fun i2 g2 e2 rest hr => by simp at hr⟩
          | hung t =>
              rw [hd] at ht0
              simp only [Result.state, Option.some.injEq] at ht0
              subst ht0
              exact ⟨_, [], hinv, by simp [hdisp], hni, fun i2 g2 e2 rest hr => by simp at hr⟩
          | outOfFuel =>
              rw [hd] at ht0
              simp [Result.state] at ht0
  | failed =>
      cases drain with
      | false => exact stay .failed (by simp)
      | true => exact scan 0
  | blocked => exact stay .blocked (by simp)

theorem launchedSince_consumer (H : EventHandler) (inv0 : List (EventHandler × ε))
    (disp0 : List (GodId × ε)) (beh : Behaviours ε) (drain : Bool) (c : Threads ε)
    (q other : Consumer ε)
    (h : ∃ ni nd, c.engine.invoked = inv0 ++ ni ∧ c.engine.dispatched = disp0 ++ nd ∧
      (∀ e, (H, e) ∈ ni → ∃ g, (g, e) ∈ nd) ∧
      (∀ i g e rest, q = .launching i g e rest → H ∈ rest → (g, e) ∈ nd) ∧
      (∀ i g e rest, other = .launching i g e rest → H ∈ rest → (g, e) ∈ nd)) :
    ∃ ni nd, (advance beh drain c.engine c.popped q).1.invoked = inv0 ++ ni ∧
      (advance beh drain c.engine c.popped q).1.dispatched = disp0 ++ nd ∧
      (∀ e, (H, e) ∈ ni → ∃ g, (g, e) ∈ nd) ∧
      (∀ i g e rest, (advance beh drain c.engine c.popped q).2.2 = .launching i g e rest →
        H ∈ rest → (g, e) ∈ nd) ∧
      (∀ i g e rest, other = .launching i g e rest → H ∈ rest → (g, e) ∈ nd) := by
  obtain ⟨ni, nd, h1, h2, h3, h4, h5⟩ := h
  obtain ⟨ni2, nd2, k1, k2, k3, k4⟩ := advance_logs beh drain c.engine c.popped q
  refine ⟨ni ++ ni2, nd ++ nd2, by rw [k1, h1, List.append_assoc],
    by rw [k2, h2, List.append_assoc], ?_, ?_, ?_⟩
  · intro e he
    rcases List.mem_append.mp he with he | he
    · obtain ⟨g, hg⟩ := h3 e he
      exact ⟨g, List.mem_append_left _ hg⟩
    · obtain ⟨i, g, rest, hq, hr⟩ := k3 H e he
      exact ⟨g, List.mem_append_left _ (h4 i g e rest hq hr)⟩
  · intro i g e rest hr hH
    rcases k4 i g e rest hr with hm | ⟨rest0, hq, hsub⟩
    · exact List.mem_append_right _ hm
    · exact List.mem_append_left _ (h4 i g e rest0 hq (hsub H hH))
  · intro i g e rest hr hH
    exact List.mem_append_left _ (h5 i g e rest hr hH)

theorem launchedSince_move (H : EventHandler) (inv0 : List (EventHandler × ε))
    (disp0 : List (GodId × ε)) (beh : Behaviours ε) (c : Threads ε) (m : Move ε)
    (h : LaunchedSince H inv0 disp0 c) : LaunchedSince H inv0 disp0 (move beh c m) := by
  cases m with
  | pushEvent g e => exact h
  | registerHandler g x => exact h
  | workerGo =>
      exact launchedSince_consumer H inv0 disp0 beh false c c.worker c.caller h
  | callerGo =>
      obtain ⟨ni, nd, h1, h2, h3, h4, h5⟩ := h
      obtain ⟨ni2, nd2, k1, k2, k3, k4, k5⟩ :=
        launchedSince_consumer H inv0 disp0 beh true c c.caller c.worker
          ⟨ni, nd, h1, h2, h3, h5, h4⟩
      exact ⟨ni2, nd2, k1, k2, k3, k5, k4⟩

theorem launchedSince_exec (H : EventHandler) (inv0 : List (EventHandler × ε))
    (disp0 : List (GodId × ε)) (beh : Behaviours ε) (ms : List (Move ε)) (c : Threads ε)
    (h : LaunchedSince H inv0 disp0 c) : LaunchedSince H inv0 disp0 (exec beh ms c) := by
  induction ms generalizing c with
  | nil => exact h
  | cons m ms ih => exact ih _ (launchedSince_move H inv0 disp0 beh c m h)

/-- At a moment at which `H` is registered for no god, no dispatch in progress has `H`
in its copy. -/
theorem launchedSince_start (H : EventHandler) (c : Threads ε) (h : Inv c)
    (hH : ∀ g, H ∉ lookup g c.engine.handlers_) :
    LaunchedSince H c.engine.invoked c.engine.dispatched c := by
  refine ⟨[], [], by simp, by simp, by simp, ?_, ?_⟩
  · intro i g e rest hw hr
    have := h.copyW
    rw [hw] at this
    exact absurd (this H hr) (hH g)
  · intro i g e rest hw hr
    have := h.copyC
    rw [hw] at this
    exact absurd (this H hr) (hH g)

/-! ## Threads: counting events -/

theorem eventsFor_perm (k : GodId) (l l2 : List (GodId × ε)) (h : l.Perm l2) :
    (eventsFor k l).Perm (eventsFor k l2) :=
  (h.filter _).map _

/-- No event is handed to `dispatch` more often than it was pushed. -/
theorem count_dispatched_le_pushed [DecidableEq ε] (c : Threads ε) (h : Inv c) (g : GodId)
    (e : ε) :
    (eventsFor g c.engine.dispatched).count e ≤ (eventsFor g c.engine.pushed).count e := by
  have h1 := (eventsFor_perm g _ _ h.once).count_eq e
  rw [eventsFor_append, List.count_append] at h1
  have h2 := congrArg (List.count e) (h.ledger.2 g)
  rw [List.count_append] at h2
  omega

theorem exec_append (beh : Behaviours ε) (a b : List (Move ε)) (c : Threads ε) :
    exec beh (a ++ b) c = exec beh b (exec beh a c) := by
  simp [exec, List.foldl_append]

/-- The launch of a single handler whose run does not push. -/
theorem runHandlers_single (beh : Behaviours ε) (god : GodId) (e : ε) (h : EventHandler)
    (s : Engine ε) (hH : ∀ a ∈ (beh h e s).actions, a.isPush = false) :
    ∃ t, (runHandlers beh god e [h] s).state = some t ∧
      t.invoked = s.invoked ++ [(h, e)] ∧ t.god_event_queues_ = s.god_event_queues_ ∧
      t.dispatched = s.dispatched ∧ t.pushed = s.pushed := by
  obtain ⟨f1, f2, -, -⟩ := applyActions_frame (beh h e s).actions
    { s with invoked := s.invoked ++ [(h, e)] }
  obtain ⟨g1, g2⟩ := applyActions_noPush (beh h e s).actions
    { s with invoked := s.invoked ++ [(h, e)] } hH
  simp only [runHandlers]
  cases hc : (beh h e s).completion with
  | never => exact ⟨_, rfl, f2, g1, f1, g2⟩
  | late => exact ⟨_, rfl, f2, g1, f1, g2⟩
  | inTime =>
      cases hr : (beh h e s).raises with
      | true => exact ⟨_, rfl, f2, g1, f1, g2⟩
      | false => exact ⟨_, rfl, f2, g1, f1, g2⟩

/-! ## The claims -/

/-- C1, as the code behaves.  In every schedule of `pushEvent` and `registerHandler`
calls, worker moves and moves of a `processEvents()` caller, with any handlers: for every
god the events popped so far, in pop order, followed by its current queue are the events
pushed to it, in push order (no loss, queues are popped in push order); the events
handed to `dispatch` together with those a thread has popped and still holds are the
events popped, each counted once (no duplication).  While only one of the two threads
takes events, the events handed to `dispatch` for a god, then the one held, then its
queue are the events pushed to it, in push order.  Pushing `0, 1, 2` to `"A"` and letting
the worker drain delivers `0, 1, 2` in that order to a recording handler. -/
theorem C1_fifo_pops_dispatched_once (beh : Behaviours ε) (ms : List (Move ε)) :
    (∀ k, eventsFor k (exec beh ms Threads.init).popped
            ++ lookup k (exec beh ms Threads.init).engine.god_event_queues_
          = eventsFor k (exec beh ms Threads.init).engine.pushed) ∧
    ((exec beh ms Threads.init).engine.dispatched ++
        ((exec beh ms Threads.init).worker.held ++ (exec beh ms Threads.init).caller.held)).Perm
      (exec beh ms Threads.init).popped ∧
    (Move.callerGo ∉ ms → ∀ k,
      eventsFor k (exec beh ms Threads.init).engine.dispatched
        ++ eventsFor k (exec beh ms Threads.init).worker.held
        ++ lookup k (exec beh ms Threads.init).engine.god_event_queues_
      = eventsFor k (exec beh ms Threads.init).engine.pushed) ∧
    (Move.workerGo ∉ ms → ∀ k,
      eventsFor k (exec beh ms Threads.init).engine.dispatched
        ++ eventsFor k (exec beh ms Threads.init).caller.held
        ++ lookup k (exec beh ms Threads.init).engine.god_event_queues_
      = eventsFor k (exec beh ms Threads.init).engine.pushed) ∧
    (exec (recording : Behaviours Nat)
        ([.registerHandler "A" 1, .pushEvent "A" 0, .pushEvent "A" 1, .pushEvent "A" 2]
          ++ List.replicate 12 .workerGo) Threads.init).engine.invoked
      = [(1, 0), (1, 1), (1, 2)] := by
  have hinv := inv_exec beh ms Threads.init inv_init
  refine ⟨hinv.ledger.2, hinv.once, ?_, ?_, by decide⟩
  · intro hms k
    obtain ⟨-, h2⟩ := exec_workerOnly beh ms Threads.init hms rfl rfl
    rw [← eventsFor_append, h2]
    exact hinv.ledger.2 k
  · intro hms k
    obtain ⟨-, h2⟩ := exec_callerOnly beh ms Threads.init hms rfl rfl
    rw [← eventsFor_append, h2]
    exact hinv.ledger.2 k

/-- Witness for C1: the worker alone, two gods, pushes between its moves. -/
theorem C1_fifo_pops_dispatched_once_witness :
    Move.callerGo ∉ ([.pushEvent "A" 0, .pushEvent "B" 5, .workerGo, .workerGo,
        .pushEvent "A" 1, .workerGo, .workerGo] : List (Move Nat)) ∧
    ∀ k, eventsFor k (exec (recording : Behaviours Nat)
          [.pushEvent "A" 0, .pushEvent "B" 5, .workerGo, .workerGo, .pushEvent "A" 1,
           .workerGo, .workerGo] Threads.init).engine.dispatched
        ++ eventsFor k (exec (recording : Behaviours Nat)
          [.pushEvent "A" 0, .pushEvent "B" 5, .workerGo, .workerGo, .pushEvent "A" 1,
           .workerGo, .workerGo] Threads.init).worker.held
        ++ lookup k (exec (recording : Behaviours Nat)
          [.pushEvent "A" 0, .pushEvent "B" 5, .workerGo, .workerGo, .pushEvent "A" 1,
           .workerGo, .workerGo] Threads.init).engine.god_event_queues_
      = eventsFor k (exec (recording : Behaviours Nat)
          [.pushEvent "A" 0, .pushEvent "B" 5, .workerGo, .workerGo, .pushEvent "A" 1,
           .workerGo, .workerGo] Threads.init).engine.pushed :=
  ⟨by decide, (C1_fifo_pops_dispatched_once (recording : Behaviours Nat)
    [.pushEvent "A" 0, .pushEvent "B" 5, .workerGo, .workerGo, .pushEvent "A" 1,
     .workerGo, .workerGo]).2.2.1 (by decide)⟩

/-- C1 fails on the code: handler `1` is registered on `"A"` and `0`, `1` are pushed.  The
worker pops `0` and releases the mutex; a `processEvents()` caller pops `1`, dispatches
and delivers it; then the worker dispatches and delivers `0`.  The events dispatched for
`"A"` followed by its queue are `1, 0`, the events pushed are `0, 1`. -/
theorem C1_counterexample :
    eventsFor "A" (exec (recording : Behaviours Nat)
        [.registerHandler "A" 1, .pushEvent "A" 0, .pushEvent "A" 1, .workerGo, .callerGo,
         .callerGo, .callerGo, .workerGo, .workerGo] Threads.init).engine.dispatched
      ++ lookup "A" (exec (recording : Behaviours Nat)
        [.registerHandler "A" 1, .pushEvent "A" 0, .pushEvent "A" 1, .workerGo, .callerGo,
         .callerGo, .callerGo, .workerGo, .workerGo] Threads.init).engine.god_event_queues_
      = [1, 0] ∧
    eventsFor "A" (exec (recording : Behaviours Nat)
        [.registerHandler "A" 1, .pushEvent "A" 0, .pushEvent "A" 1, .workerGo, .callerGo,
         .callerGo, .callerGo, .workerGo, .workerGo] Threads.init).engine.pushed = [0, 1] ∧
    (exec (recording : Behaviours Nat)
        [.registerHandler "A" 1, .pushEvent "A" 0, .pushEvent "A" 1, .workerGo, .callerGo,
         .callerGo, .callerGo, .workerGo, .workerGo] Threads.init).engine.invoked
      = [(1, 1), (1, 0)] := by
  decide

/-- C2, as the code behaves: a handler that raises before the deadline makes `dispatch`
leave by that error (`fut.get()` rethrows, nothing catches it).  The handlers registered
before it and the handler itself have been launched with the event, the handlers
registered after it are not launched for it.  When the event is at the front of the
first queue, `processEvents` and the worker pass leave by the same error, and the worker
thread is terminated. -/
theorem C2_error_propagates (beh : Behaviours ε) (god : GodId) (event : ε)
    (pre : List EventHandler) (h : EventHandler) (post : List EventHandler) (s : Engine ε)
    (hs : lookup god s.handlers_ = pre ++ h :: post)
    (hpre : ∀ x ∈ pre, ∀ st, (beh x event st).proceeds = true)
    (hh : ∀ st, (beh h event st).completion = .inTime ∧ (beh h event st).raises = true) :
    (∃ s1, dispatch beh god event s = .threw s1 ∧
      s1.invoked = s.invoked ++ (pre ++ [h]).map (fun x => (x, event))) ∧
    (∀ (fuel : Nat) (q : List ε) (rest : List (GodId × List ε)),
      s.god_event_queues_ = (god, event :: q) :: rest →
      ∃ s1, processEvents beh (fuel + 1) s = .threw s1 ∧
        workerPass beh (fuel + 1) s = .threw s1 ∧
        workerStep beh (fuel + 1) { engine := s, pc := .waiting }
          = some { engine := s1, pc := .terminated } ∧
        s1.invoked = s.invoked ++ (pre ++ [h]).map (fun x => (x, event))) := by
  constructor
  · unfold dispatch
    rw [hs]
    exact runHandlers_raises beh god event pre h post _ hpre hh
  · intro fuel q rest hq
    obtain ⟨s1, h1, h2⟩ := runHandlers_raises beh god event pre h post
      { s with god_event_queues_ := (god, q) :: rest,
               dispatched := s.dispatched ++ [(god, event)] } hpre hh
    have hd : dispatch beh god event
        { s with god_event_queues_ := s.god_event_queues_.set 0 (god, q) } = .threw s1 := by
      unfold dispatch
      simp only [hs, hq, List.set_cons_zero]
      exact h1
    have hp : processEvents beh (fuel + 1) s = .threw s1 := by
      simp only [processEvents, drainFrom, hq, List.get?_cons_zero]
      rw [← hq, hd]
    have hw : workerPass beh (fuel + 1) s = .threw s1 := by
      simp only [workerPass, passFrom, hq, List.get?_cons_zero]
      rw [← hq, hd]
    refine ⟨s1, hp, hw, ?_, h2⟩
    simp only [workerStep, hw]

/-- Witness for C2: handler `1` raises, handler `2` is registered after it. -/
theorem C2_error_propagates_witness :
    ∃ s1, dispatch raisingFirst "A" 7
        (registerHandler "A" 2 (registerHandler "A" 1 (Engine.init : Engine Nat))) = .threw s1 ∧
      s1.invoked = [(1, 7)] :=
  (C2_error_propagates raisingFirst "A" 7 [] 1 [2]
    (registerHandler "A" 2 (registerHandler "A" 1 (Engine.init : Engine Nat)))
    (by decide) (by simp) (by intro st; exact ⟨rfl, rfl⟩)).1

/-- C2 fails on the code: with handlers `1` (raises) and `2` registered on `"A"` and the
events `0`, `1` queued, `processEvents` leaves by the error of handler `1`; handler `2`
never receives event `0` and event `1` stays queued. -/
theorem C2_counterexample :
    (run raisingFirst 8
        [.registerHandler "A" 1, .registerHandler "A" 2, .pushEvent "A" 0, .pushEvent "A" 1,
         .processEvents] Engine.init).ending = .threw ∧
    (run raisingFirst 8
        [.registerHandler "A" 1, .registerHandler "A" 2, .pushEvent "A" 0, .pushEvent "A" 1,
         .processEvents] Engine.init).state.map (fun s => (s.invoked, s.god_event_queues_))
      = some ([(1, 0)], [("A", [1])]) := by
  decide

/-- C3: round-robin pass.  For every queue store, one pass of the worker loop (handlers
do not push) ends within `length + 1` loop iterations.  However it ends, the events it
has popped and dispatched are an initial segment of the fronts of the non-empty queues
in iteration order, so no god is serviced twice.  When it returns, which it does
whenever no handler raises or blocks, it has popped and dispatched exactly the front
event of every god whose queue was not empty and nothing for a god with an empty queue.
With `A0, A1` pushed to `"A"` and `B0, B1` pushed to `"B"`, two passes deliver
`A0, B0, A1, B1`. -/
theorem C3_round_robin_pass (beh : Behaviours ε) (hnp : NoPush beh) (s : Engine ε)
    (fuel : Nat) (hf : s.god_event_queues_.length < fuel) :
    (∃ s1, (workerPass beh fuel s).state = some s1 ∧
      (∃ d, d <+: fronts s.god_event_queues_ ∧ s1.dispatched = s.dispatched ++ d) ∧
      (Completes beh → workerPass beh fuel s = .returned s1)) ∧
    (∀ s1, workerPass beh fuel s = .returned s1 →
      s1.god_event_queues_ = serviced s.god_event_queues_ ∧
      s1.dispatched = s.dispatched ++ fronts s.god_event_queues_) ∧
    (run (recording : Behaviours String) 3
        [.pushEvent "A" "A0", .pushEvent "A" "A1", .pushEvent "B" "B0", .pushEvent "B" "B1",
         .workerPass, .workerPass] Engine.init).state.map
        (fun t => (t.dispatched, t.god_event_queues_))
      = some ([("A", "A0"), ("B", "B0"), ("A", "A1"), ("B", "B1")], [("A", []), ("B", [])]) := by
  refine ⟨?_, ?_, by decide⟩
  · obtain ⟨s1, h1, h2⟩ := passFrom_total beh hnp fuel [] s.god_event_queues_ s rfl hf
    exact ⟨s1, h1, passFrom_segment beh hnp fuel [] s.god_event_queues_ s s1 rfl h1, h2⟩
  · intro s1 h
    obtain ⟨a, b, -, -⟩ := passFrom_returned beh hnp fuel [] s.god_event_queues_ s s1 rfl h
    exact ⟨by simpa using a, b⟩

/-- Witness for C3: one pass over a store with a two-event queue, an empty queue and a
one-event queue. -/
theorem C3_round_robin_pass_witness :
    NoPush (recording : Behaviours Nat) ∧
    ∃ s1, workerPass (recording : Behaviours Nat) 4
        { (Engine.init : Engine Nat) with
          god_event_queues_ := [("A", [1, 2]), ("B", []), ("C", [3])] } = .returned s1 ∧
      s1.god_event_queues_ = [("A", [2]), ("B", []), ("C", [])] ∧
      s1.dispatched = [("A", 1), ("C", 3)] := by
  obtain ⟨⟨s1, -, -, hr⟩, hx, -⟩ := C3_round_robin_pass recording recording_noPush
    { (Engine.init : Engine Nat) with
      god_event_queues_ := [("A", [1, 2]), ("B", []), ("C", [3])] } 4 (by decide)
  have h := hr recording_completes
  exact ⟨recording_noPush, s1, h, (hx s1 h).1, (hx s1 h).2⟩

/-- C4: fan-out in registration order.  `registerHandler` appends to the list of its
god and leaves the lists of other gods alone; `dispatch(k, e)` launches handlers of the
list of `k` only, each at most once, in list order (an initial segment of the list,
whatever the handlers do); when every handler of the list lets the loop go on,
`dispatch` returns having launched each handler of the list exactly once with `e`, in
registration order; for a god without handlers it launches nothing.  Registering `1`
then `2` on `"A"` and pushing one event delivers it to `1` and then `2`. -/
theorem C4_fan_out (beh : Behaviours ε) (s : Engine ε) (k : GodId) (e : ε) :
    (∀ g h, lookup k (registerHandler g h s).handlers_
        = lookup k s.handlers_ ++ (if g = k then [h] else [])) ∧
    (∀ s1, (dispatch beh k e s).state = some s1 →
      ∃ done, done <+: lookup k s.handlers_ ∧
        s1.invoked = s.invoked ++ done.map (fun h => (h, e))) ∧
    ((∀ h ∈ lookup k s.handlers_, ∀ st, (beh h e st).proceeds = true) →
      ∃ s1, dispatch beh k e s = .returned s1 ∧
        s1.invoked = s.invoked ++ (lookup k s.handlers_).map (fun h => (h, e))) ∧
    (lookup k s.handlers_ = [] →
      dispatch beh k e s = .returned { s with dispatched := s.dispatched ++ [(k, e)] }) ∧
    (run (recording : Behaviours Nat) 4
        [.registerHandler "A" 1, .registerHandler "B" 3, .registerHandler "A" 2,
         .pushEvent "A" 7, .processEvents] Engine.init).state.map (fun t => t.invoked)
      = some [(1, 7), (2, 7)] := by
  refine ⟨?_, ?_, ?_, ?_, by decide⟩
  · intro g h
    simp [registerHandler, lookup_appendAt]
  · intro s1 h1
    obtain ⟨d, hd, hi⟩ := runHandlers_invoked beh k e (lookup k s.handlers_)
      { s with dispatched := s.dispatched ++ [(k, e)] } s1 h1
    exact ⟨d, hd, hi⟩
  · intro hc
    obtain ⟨s1, h1, h2⟩ := runHandlers_proceeds beh k e (lookup k s.handlers_)
      { s with dispatched := s.dispatched ++ [(k, e)] } hc
    exact ⟨s1, h1, h2⟩
  · intro hn
    simp [dispatch, hn, runHandlers]

/-- Witness for C4: handler `1` (late) and handler `2` registered on `"A"`. -/
theorem C4_fan_out_witness :
    ∃ s1, dispatch slowFirst "A" 7
        (registerHandler "A" 2 (registerHandler "A" 1 (Engine.init : Engine Nat)))
          = .returned s1 ∧
      s1.invoked = [] ++ [1, 2].map (fun h => (h, 7)) :=
  (C4_fan_out slowFirst
    (registerHandler "A" 2 (registerHandler "A" 1 (Engine.init : Engine Nat))) "A" 7).2.2.1
    (by intro h _ st; by_cases h1 : h = 1 <;> simp [slowFirst, Behaviour.proceeds, h1])

/-- C5 at the failing input: handler `1` never returns, handler `2` is registered after
it on `"A"`, handler `3` is registered on `"B"`.  `dispatch("A", 0)` writes one timeout
line for `"A"` and then blocks for ever in the destructor of the future: handler `2` is
not launched, and the drain never reaches the event queued for `"B"`. -/
theorem C5_never_returning_handler_blocks :
    (dispatch stuckFirst "A" 0
        (registerHandler "A" 2 (registerHandler "A" 1 (Engine.init : Engine Nat)))).ending
      = .hung ∧
    (dispatch stuckFirst "A" 0
        (registerHandler "A" 2 (registerHandler "A" 1 (Engine.init : Engine Nat)))).state.map
        (fun t => (t.diagnostics, t.invoked)) = some (["A"], [(1, 0)]) ∧
    (run stuckFirst 8
        [.registerHandler "A" 1, .registerHandler "A" 2, .registerHandler "B" 3,
         .pushEvent "A" 0, .pushEvent "B" 5, .processEvents] Engine.init).ending = .hung ∧
    (run stuckFirst 8
        [.registerHandler "A" 1, .registerHandler "A" 2, .registerHandler "B" 3,
         .pushEvent "A" 0, .pushEvent "B" 5, .processEvents] Engine.init).state.map
        (fun t => (t.diagnostics, t.invoked, t.god_event_queues_))
      = some (["A"], [(1, 0)], [("A", []), ("B", [5])]) := by
  decide

/-- C6, as the code behaves.  `dispatch` copies the handler list when it starts, not when
the event is popped.  In every schedule, if `H` is registered for no god and then
`registerHandler(k, H)` is called, every later launch of `H` is with an event that was
handed to `dispatch` after that call; an event all of whose pushes had already been
handed to `dispatch` before the call is never delivered to `H` (no replay).  When the
worker makes no move, the calls `pushEvent(k, E0)`, `processEvents()`,
`registerHandler(k, H)`, `pushEvent(k, E1)`, `processEvents()`, with `H` not pushing,
launch `H` exactly once, with `E1`. -/
theorem C6_registration_before_copy [DecidableEq ε] (beh : Behaviours ε)
    (ms0 ms : List (Move ε)) (k : GodId) (H : EventHandler) (E0 E1 : ε) :
    ((∀ g, H ∉ lookup g (exec beh ms0 Threads.init).engine.handlers_) →
      ∃ ni nd,
        (exec beh ms (move beh (exec beh ms0 Threads.init) (.registerHandler k H))).engine.invoked
          = (exec beh ms0 Threads.init).engine.invoked ++ ni ∧
        (exec beh ms (move beh (exec beh ms0 Threads.init)
            (.registerHandler k H))).engine.dispatched
          = (exec beh ms0 Threads.init).engine.dispatched ++ nd ∧
        (∀ e, (H, e) ∈ ni → ∃ g, (g, e) ∈ nd) ∧
        (∀ e, (∀ g, (eventsFor g (exec beh ms (move beh (exec beh ms0 Threads.init)
              (.registerHandler k H))).engine.pushed).count e
            ≤ (eventsFor g (exec beh ms0 Threads.init).engine.dispatched).count e) →
          (H, e) ∉ ni)) ∧
    ((∀ st, ∀ a ∈ (beh H E1 st).actions, a.isPush = false) →
      (exec beh [.pushEvent k E0, .callerGo, .callerGo, .callerGo, .registerHandler k H,
          .pushEvent k E1, .callerGo, .callerGo, .callerGo, .callerGo]
          Threads.init).engine.invoked = [(H, E1)] ∧
      (exec beh [.pushEvent k E0, .callerGo, .callerGo, .callerGo, .registerHandler k H,
          .pushEvent k E1, .callerGo, .callerGo, .callerGo, .callerGo]
          Threads.init).engine.dispatched = [(k, E0), (k, E1)]) := by
  constructor
  · intro hfresh
    have hinv0 := inv_exec beh ms0 Threads.init inv_init
    have hstart := launchedSince_start H _ hinv0 hfresh
    have hreg : LaunchedSince H (exec beh ms0 Threads.init).engine.invoked
        (exec beh ms0 Threads.init).engine.dispatched
        (move beh (exec beh ms0 Threads.init) (.registerHandler k H)) :=
      launchedSince_move H _ _ beh _ _ hstart
    obtain ⟨ni, nd, h1, h2, h3, -, -⟩ := launchedSince_exec H _ _ beh ms _ hreg
    refine ⟨ni, nd, h1, h2, h3, ?_⟩
    intro e hcount hmem
    obtain ⟨g, hg⟩ := h3 e hmem
    have hinv1 := inv_exec beh ms _ (inv_move beh _ (.registerHandler k H) hinv0)
    have hle := count_dispatched_le_pushed _ hinv1 g e
    rw [h2, eventsFor_append, List.count_append] at hle
    have hpos : 0 < (eventsFor g nd).count e := by
      apply List.count_pos_iff.mpr
      simp only [eventsFor, List.mem_map, List.mem_filter, decide_eq_true_eq]
      exact ⟨(g, e), ⟨hg, rfl⟩, rfl⟩
    have := hcount g
    omega
  · intro hH
    have h8 : exec beh [.pushEvent k E0, .callerGo, .callerGo, .callerGo,
          .registerHandler k H, .pushEvent k E1, .callerGo, .callerGo] Threads.init =
        { engine := { (Engine.init : Engine ε) with
            handlers_ := [(k, [H])], god_event_queues_ := [(k, [])],
            pushed := [(k, E0), (k, E1)], dispatched := [(k, E0), (k, E1)] },
          popped := [(k, E0), (k, E1)], worker := .outside,
          caller := .launching 0 k E1 [H], callMark := 2 } := by
      simp [exec, move, advance, lockedScan, firstNonEmpty, Threads.init, Engine.init,
        pushEvent, registerHandler, appendAt, lookup, Consumer.startsCall]
    have hsplit : ([.pushEvent k E0, .callerGo, .callerGo, .callerGo, .registerHandler k H,
          .pushEvent k E1, .callerGo, .callerGo, .callerGo, .callerGo] : List (Move ε)) =
        [.pushEvent k E0, .callerGo, .callerGo, .callerGo, .registerHandler k H,
          .pushEvent k E1, .callerGo, .callerGo] ++ [.callerGo, .callerGo] := rfl
    rw [hsplit, exec_append, h8]
    obtain ⟨t, ht, hi, hq, hd, -⟩ := runHandlers_single beh k E1 H
      { (Engine.init : Engine ε) with
            handlers_ := [(k, [H])], god_event_queues_ := [(k, [])],
            pushed := [(k, E0), (k, E1)], dispatched := [(k, E0), (k, E1)] } (hH _)
    simp only [exec, List.foldl, move, advance]
    cases hr : runHandlers beh k E1 [H] { (Engine.init : Engine ε) with
            handlers_ := [(k, [H])], god_event_queues_ := [(k, [])],
            pushed := [(k, E0), (k, E1)], dispatched := [(k, E0), (k, E1)] } with
    | returned u =>
        rw [hr] at ht
        simp only [Result.state, Option.some.injEq] at ht
        subst ht
        simp [lockedScan, hq, firstNonEmpty, hi, hd, Engine.init]
    | threw u =>
        rw [hr] at ht
        simp only [Result.state, Option.some.injEq] at ht
        subst ht
        simp [lockedScan, hq, firstNonEmpty, hi, hd, Engine.init]
    | hung u =>
        rw [hr] at ht
        simp only [Result.state, Option.some.injEq] at ht
        subst ht
        simp [hi, hd, Engine.init]
    | outOfFuel =>
        rw [hr] at ht
        simp [Result.state] at ht

/-- Witness for C6: event `0` is pushed to `"A"` and drained by a `processEvents()` call
before handler `1` is registered; event `1` is pushed and drained afterwards. -/
theorem C6_registration_before_copy_witness :
    (∀ g, 1 ∉ lookup g (exec (recording : Behaviours Nat)
        [.pushEvent "A" 0, .callerGo, .callerGo, .callerGo] Threads.init).engine.handlers_) ∧
    (∃ ni nd,
        (exec (recording : Behaviours Nat)
          [.pushEvent "A" 1, .callerGo, .callerGo, .callerGo, .callerGo]
          (move recording (exec (recording : Behaviours Nat)
            [.pushEvent "A" 0, .callerGo, .callerGo, .callerGo] Threads.init)
            (.registerHandler "A" 1))).engine.invoked
          = (exec (recording : Behaviours Nat)
            [.pushEvent "A" 0, .callerGo, .callerGo, .callerGo] Threads.init).engine.invoked
            ++ ni ∧
        (exec (recording : Behaviours Nat)
          [.pushEvent "A" 1, .callerGo, .callerGo, .callerGo, .callerGo]
          (move recording (exec (recording : Behaviours Nat)
            [.pushEvent "A" 0, .callerGo, .callerGo, .callerGo] Threads.init)
            (.registerHandler "A" 1))).engine.dispatched
          = (exec (recording : Behaviours Nat)
            [.pushEvent "A" 0, .callerGo, .callerGo, .callerGo] Threads.init).engine.dispatched
            ++ nd ∧
        (∀ e, (1, e) ∈ ni → ∃ g, (g, e) ∈ nd) ∧
        (∀ e, (∀ g, (eventsFor g (exec (recording : Behaviours Nat)
              [.pushEvent "A" 1, .callerGo, .callerGo, .callerGo, .callerGo]
              (move recording (exec (recording : Behaviours Nat)
                [.pushEvent "A" 0, .callerGo, .callerGo, .callerGo] Threads.init)
                (.registerHandler "A" 1))).engine.pushed).count e
            ≤ (eventsFor g (exec (recording : Behaviours Nat)
              [.pushEvent "A" 0, .callerGo, .callerGo, .callerGo]
              Threads.init).engine.dispatched).count e) →
          (1, e) ∉ ni)) ∧
    ((exec (recording : Behaviours Nat)
        [.pushEvent "A" 0, .callerGo, .callerGo, .callerGo, .registerHandler "A" 1,
          .pushEvent "A" 1, .callerGo, .callerGo, .callerGo, .callerGo]
          Threads.init).engine.invoked = [(1, 1)] ∧
      (exec (recording : Behaviours Nat)
        [.pushEvent "A" 0, .callerGo, .callerGo, .callerGo, .registerHandler "A" 1,
          .pushEvent "A" 1, .callerGo, .callerGo, .callerGo, .callerGo]
          Threads.init).engine.dispatched = [("A", 0), ("A", 1)]) :=
  ⟨by intro g; simp [exec, move, advance, lockedScan, firstNonEmpty, Threads.init,
      Engine.init, pushEvent, appendAt, lookup],
   (C6_registration_before_copy (recording : Behaviours Nat)
      [.pushEvent "A" 0, .callerGo, .callerGo, .callerGo]
      [.pushEvent "A" 1, .callerGo, .callerGo, .callerGo, .callerGo] "A" 1 0 1).1
      (by intro g; simp [exec, move, advance, lockedScan, firstNonEmpty, Threads.init,
        Engine.init, pushEvent, appendAt, lookup]),
   (C6_registration_before_copy (recording : Behaviours Nat)
      [.pushEvent "A" 0, .callerGo, .callerGo, .callerGo]
      [.pushEvent "A" 1, .callerGo, .callerGo, .callerGo, .callerGo] "A" 1 0 1).2
      (by intro st a ha; simp [recording] at ha)⟩

/-- C6 fails on the code: `0` is pushed to `"A"`; the worker pops it and releases the
mutex; the caller's `processEvents()` finds the queue empty and returns; handler `1` is
registered; the worker's `dispatch` now copies the handler list and delivers `0` to
handler `1`; then `1` is pushed and drained.  Handler `1` has received `0`, which was
popped while no handler was registered. -/
theorem C6_counterexample :
    (exec (recording : Behaviours Nat)
        [.pushEvent "A" 0, .workerGo, .callerGo] Threads.init).caller = .outside ∧
    (exec (recording : Behaviours Nat)
        [.pushEvent "A" 0, .workerGo, .callerGo] Threads.init).popped = [("A", 0)] ∧
    (exec (recording : Behaviours Nat)
        [.pushEvent "A" 0, .workerGo, .callerGo] Threads.init).engine.handlers_ = [] ∧
    (exec (recording : Behaviours Nat)
        [.pushEvent "A" 0, .workerGo, .callerGo, .registerHandler "A" 1, .workerGo, .workerGo,
         .pushEvent "A" 1, .callerGo, .callerGo, .callerGo, .callerGo]
        Threads.init).engine.invoked = [(1, 0), (1, 1)] := by
  decide

/-- C7: snapshot stability.  Whatever the handlers do, the handlers launched by
`dispatch(k, e)` are an initial segment of the list registered for `k` when the dispatch
started, and the list of `k` afterwards extends that list: a registration made while the
dispatch runs is not launched for `e`.  With handlers that let the loop go on,
`dispatch(k, e)` returns having launched exactly the handlers registered for `k` when it
started, every handler registered for `k` by a running handler is in the list
afterwards, and the next `dispatch` for `k` launches every handler of that longer
list. -/
theorem C7_snapshot_stability (beh : Behaviours ε) (s : Engine ε) (k : GodId) (e e2 : ε) :
    (∀ s1, (dispatch beh k e s).state = some s1 →
      (∃ done, done <+: lookup k s.handlers_ ∧
        s1.invoked = s.invoked ++ done.map (fun h => (h, e))) ∧
      lookup k s.handlers_ <+: lookup k s1.handlers_) ∧
    (Completes beh →
      ∃ s1 s2, dispatch beh k e s = .returned s1 ∧
        s1.invoked = s.invoked ++ (lookup k s.handlers_).map (fun h => (h, e)) ∧
        (∀ x, (∃ y ∈ lookup k s.handlers_,
            ∀ st, Action.registerHandler k x ∈ (beh y e st).actions) →
          x ∈ lookup k s1.handlers_) ∧
        dispatch beh k e2 s1 = .returned s2 ∧
        s2.invoked = s1.invoked ++ (lookup k s1.handlers_).map (fun h => (h, e2))) := by
  constructor
  · intro s1 h1
    obtain ⟨d, hd, hi⟩ := runHandlers_invoked beh k e (lookup k s.handlers_)
      { s with dispatched := s.dispatched ++ [(k, e)] } s1 h1
    exact ⟨⟨d, hd, hi⟩, runHandlers_handlers_mono beh k e k (lookup k s.handlers_)
      { s with dispatched := s.dispatched ++ [(k, e)] } s1 h1⟩
  · intro hc
    obtain ⟨s1, h1, h2⟩ := dispatch_completes beh hc k e s
    obtain ⟨s2, h3, h4⟩ := dispatch_completes beh hc k e2 s1
    refine ⟨s1, s2, h1, h2, ?_, h3, h4⟩
    intro x hx
    exact runHandlers_registered beh k e k x (lookup k s.handlers_)
      { s with dispatched := s.dispatched ++ [(k, e)] } s1 h1 hx

theorem registeringFirst_completes : Completes registeringFirst := by
  intro h e s
  rfl

/-- Witness for C7: handler `1` on `"A"` registers handler `2` on `"A"` while it handles
event `7`; handler `2` is not launched for `7` and is launched for `8`. -/
theorem C7_snapshot_stability_witness :
    Completes registeringFirst ∧
    (∃ s1 s2, dispatch registeringFirst "A" 7
          (registerHandler "A" 1 (Engine.init : Engine Nat)) = .returned s1 ∧
      s1.invoked = [(1, 7)] ∧
      (∀ x, (∃ y ∈ [1],
          ∀ st, Action.registerHandler "A" x ∈ (registeringFirst y 7 st).actions) →
        x ∈ lookup "A" s1.handlers_) ∧
      dispatch registeringFirst "A" 8 s1 = .returned s2 ∧
      s2.invoked = s1.invoked ++ (lookup "A" s1.handlers_).map (fun h => (h, 8))) ∧
    (run registeringFirst 4
        [.registerHandler "A" 1, .pushEvent "A" 7, .processEvents, .pushEvent "A" 8,
         .processEvents] Engine.init).state.map (fun t => t.invoked)
      = some [(1, 7), (1, 8), (2, 8)] :=
  ⟨registeringFirst_completes,
   (C7_snapshot_stability registeringFirst
    (registerHandler "A" 1 (Engine.init : Engine Nat)) "A" 7 8).2 registeringFirst_completes,
   by decide⟩

/-- C8, as the code behaves: the worker reads `stop_flag_` only at the loop head.  When
the destructor sets the flag while the worker is at the loop head, the worker exits
without popping or dispatching anything.  When the flag is set after the worker has
passed the loop test (it is in `cv_.wait_for` or about to enter it), the worker still
runs one whole pass, popping and dispatching the front event of every god whose queue is
not empty, and exits at the next loop test; only the events behind the fronts are
dropped. -/
theorem C8_shutdown_one_more_pass (beh : Behaviours ε) (hnp : NoPush beh)
    (hc : Completes beh) (w : Machine ε) (fuel : Nat)
    (hf : w.engine.god_event_queues_.length < fuel) :
    (w.pc = .loopHead →
      shutdown beh fuel w = some { engine := { w.engine with stop_flag_ := true },
                                   pc := .exited }) ∧
    (w.pc = .waiting →
      ∃ w1, shutdown beh fuel w = some w1 ∧ w1.pc = .exited ∧
        w1.engine.god_event_queues_ = serviced w.engine.god_event_queues_ ∧
        w1.engine.dispatched = w.engine.dispatched ++ fronts w.engine.god_event_queues_) := by
  constructor
  · intro hpc
    simp [shutdown, worker, setStop, workerStep, hpc]
  · intro hpc
    obtain ⟨s1, -, hr⟩ := passFrom_total beh hnp fuel []
      (setStop w).engine.god_event_queues_ (setStop w).engine rfl hf
    have hr1 : workerPass beh fuel (setStop w).engine = .returned s1 := hr hc
    obtain ⟨a, b, -, d⟩ := passFrom_returned beh hnp fuel []
      (setStop w).engine.god_event_queues_ (setStop w).engine s1 rfl hr1
    have hstop : s1.stop_flag_ = true := d
    refine ⟨{ engine := s1, pc := .exited }, ?_, rfl, by simpa using a, b⟩
    have hpc2 : (setStop w).pc = .waiting := hpc
    simp [shutdown, worker, workerStep, hpc2, hr1, hstop]

/-- Witness for C8: the flag is set while the worker waits with `"A"` holding `0, 1`. -/
theorem C8_shutdown_one_more_pass_witness :
    NoPush (recording : Behaviours Nat) ∧ Completes (recording : Behaviours Nat) ∧
    ∃ w1, shutdown (recording : Behaviours Nat) 2
        { engine := { (Engine.init : Engine Nat) with god_event_queues_ := [("A", [0, 1])] },
          pc := .waiting } = some w1 ∧ w1.pc = .exited ∧
      w1.engine.god_event_queues_ = [("A", [1])] ∧
      w1.engine.dispatched = [("A", 0)] :=
  ⟨recording_noPush, recording_completes,
   (C8_shutdown_one_more_pass recording recording_noPush recording_completes
    { engine := { (Engine.init : Engine Nat) with god_event_queues_ := [("A", [0, 1])] },
      pc := .waiting } 2 (by decide)).2 rfl⟩

/-- C8 fails on the code: the worker passes the loop test, `"A"` and `"B"` each get one
event, and the destructor runs.  Both events were queued when the flag was set, and both
are dispatched before the worker exits. -/
theorem C8_counterexample :
    ((workerStep (recording : Behaviours Nat) 4 Machine.init).bind
        (fun w => shutdown recording 4
          (onEngine (pushEvent "B" 1) (onEngine (pushEvent "A" 0) w)))).map
        (fun w => (w.pc, w.engine.stop_flag_, w.engine.dispatched, w.engine.god_event_queues_))
      = some (.exited, true, [("A", 0), ("B", 1)], [("A", []), ("B", [])]) := by
  rfl

/-- C9: drain postcondition.  For every queue store and handlers that do not push,
`processEvents` ends within `work + 1` loop iterations, returns whenever no handler
raises or blocks, and when it returns every queue is empty and `allQueuesEmpty()` is
true; `allQueuesEmpty()` is true exactly when every queue is empty. -/
theorem C9_drain_postcondition (beh : Behaviours ε) (hnp : NoPush beh) (s : Engine ε)
    (fuel : Nat) (hf : work s.god_event_queues_ < fuel) :
    (∃ s1, (processEvents beh fuel s).state = some s1 ∧
      (Completes beh → processEvents beh fuel s = .returned s1)) ∧
    (∀ s1, processEvents beh fuel s = .returned s1 →
      allQueuesEmpty s1 = true ∧ ∀ p ∈ s1.god_event_queues_, p.2 = []) ∧
    (∀ t : Engine ε, allQueuesEmpty t = true ↔ ∀ p ∈ t.god_event_queues_, p.2 = []) := by
  refine ⟨drainFrom_total beh hnp fuel [] s.god_event_queues_ s rfl hf, ?_, ?_⟩
  · intro s1 h
    obtain ⟨a, -, -, -⟩ := drainFrom_returned beh hnp fuel [] s.god_event_queues_ s s1 rfl h
    have hall : ∀ p ∈ s1.god_event_queues_, p.2 = [] := by
      rw [a]; simpa using emptied_all s.god_event_queues_
    exact ⟨(allQueuesEmptyFrom_iff _).mpr hall, hall⟩
  · intro t
    exact allQueuesEmptyFrom_iff _

/-- Witness for C9: two gods with queued events, one with an empty queue. -/
theorem C9_drain_postcondition_witness :
    NoPush (recording : Behaviours Nat) ∧
    ∃ s1, processEvents (recording : Behaviours Nat) 7
        { (Engine.init : Engine Nat) with
          god_event_queues_ := [("A", [1, 2]), ("B", []), ("C", [3])] } = .returned s1 ∧
      allQueuesEmpty s1 = true ∧ ∀ p ∈ s1.god_event_queues_, p.2 = [] := by
  obtain ⟨⟨s1, -, hr⟩, hx, -⟩ := C9_drain_postcondition recording recording_noPush
    { (Engine.init : Engine Nat) with
      god_event_queues_ := [("A", [1, 2]), ("B", []), ("C", [3])] } 7 (by decide)
  have h := hr recording_completes
  exact ⟨recording_noPush, s1, h, hx s1 h⟩

/-- With a handler that pushes to its own god every time it runs, `processEvents` does
not end: no budget is enough. -/
theorem processEvents_may_not_end (fuel : Nat) :
    ∀ s : Engine Nat, s.handlers_ = [("A", [1])] → s.god_event_queues_ = [("A", [0])] →
      processEvents alwaysPushing fuel s = .outOfFuel := by
  induction fuel with
  | zero => intro s _ _; rfl
  | succ fuel ih =>
      intro s hh hq
      have hd : dispatch alwaysPushing "A" 0
          { s with god_event_queues_ := s.god_event_queues_.set 0 ("A", []) } =
          .returned { s with dispatched := s.dispatched ++ [("A", 0)],
                             invoked := s.invoked ++ [(1, 0)],
                             pushed := s.pushed ++ [("A", 0)] } := by
        simp [dispatch, hh, hq, lookup, runHandlers, alwaysPushing, applyActions, applyAction,
          pushEvent, appendAt]
      have := ih { s with dispatched := s.dispatched ++ [("A", 0)],
                          invoked := s.invoked ++ [(1, 0)],
                          pushed := s.pushed ++ [("A", 0)] } hh hq
      simp only [processEvents] at this ⊢
      rw [drainFrom]
      simp only [hq, List.get?_cons_zero]
      rw [← hq, hd]
      exact this

end elden_tree_ns
